import Mathlib

/-!
Verification of the jean chat-agent core: a shallow embedding, in Lean, of the
server's approval gate (`packages/server/src/core/approvals.ts`), the turn
driver (`streamChat` and its tool wrapper in the agent module), the websocket
fan-out (`broadcast`, `getWsForSession`, `handleChat` in the server entry
point), the client transcript accumulator (`handleServerMessage` in
`packages/client/src/App.tsx`), the render-time grouping
(`groupToolCallsAndResults` in `Message.tsx`), and the message store
(`packages/server/src/store/messages.ts`), together with theorems about them.

JavaScript values that cross the wire or the database are modelled by a small
JSON value type; the string-level `JSON.stringify`/`JSON.parse` pair of the
host platform is treated as the external collaborator it is, so persistence
and wire serialization are modelled at the JSON-value level.
-/

namespace Jean

/-- JSON values as stored and exchanged by the system. -/
inductive Json where
  | null
  | bool (b : Bool)
  | num (n : Int)
  | str (s : String)
  | arr (elems : List Json)
  | obj (fields : List (String × Json))

/-- Field lookup on a JSON object, mirroring JavaScript property access on a
plain object (first binding wins, as keys are unique in stringified objects). -/
def Json.getField (j : Json) (key : String) : Option Json :=
  match j with
  | .obj fields => (fields.find? (fun kv => kv.1 == key)).map Prod.snd
  | _ => none

/-- The JavaScript test `result && typeof result === 'object' && 'error' in result`
used by both the turn driver and the client to flag error results. -/
def jsonIsErrorResult (j : Json) : Bool :=
  match j with
  | .obj fields => (fields.find? (fun kv => kv.1 == "error")).isSome
  | _ => false

/-- Fuel-indexed JSON rendering (compact form, no escaping: no claim depends
on the exact character stream of `JSON.stringify`). -/
def Json.renderF : Nat → Json → String
  | 0, _ => ""
  | Nat.succ n, j =>
    match j with
    | .null => "null"
    | .bool b => cond b "true" "false"
    | .num i => toString i
    | .str s => "\"" ++ s ++ "\""
    | .arr xs => "[" ++ String.intercalate "," (xs.map (Json.renderF n)) ++ "]"
    | .obj fs =>
        "\x7b" ++
          String.intercalate ","
            (fs.map (fun kv => "\"" ++ kv.1 ++ "\":" ++ Json.renderF n kv.2)) ++
        "\x7d"

mutual

/-- Structural size of a JSON value (fuel for rendering). -/
def Json.size : Json → Nat
  | .null => 1
  | .bool _ => 1
  | .num _ => 1
  | .str _ => 1
  | .arr xs => 1 + Json.sizeList xs
  | .obj fs => 1 + Json.sizeFields fs

/-- Combined size of a list of JSON values. -/
def Json.sizeList : List Json → Nat
  | [] => 0
  | j :: js => Json.size j + Json.sizeList js

/-- Combined size of an object's field list. -/
def Json.sizeFields : List (String × Json) → Nat
  | [] => 0
  | kv :: fs => Json.size kv.2 + Json.sizeFields fs

end

/-- Model of `JSON.stringify` on JSON values. -/
def jsonStringify (j : Json) : String :=
  Json.renderF (Json.size j) j

/-- Message roles (`'user' | 'assistant' | 'system'`). -/
inductive Role where
  | user
  | assistant
  | system
deriving DecidableEq, Repr

/-- Role as the string stored in the database / sent on the wire. -/
def roleToString : Role → String
  | .user => "user"
  | .assistant => "assistant"
  | .system => "system"

/-- Reading a stored role string back (the source casts unchecked; the model
validates). -/
def roleOfString (s : String) : Option Role :=
  if s == "user" then some .user
  else if s == "assistant" then some .assistant
  else if s == "system" then some .system
  else none

/-- `ToolCallBlock` of `packages/shared/src/types/message.ts`, with the
optional boolean markers the client adds (`pending?`, `needsApproval?`,
`dangerous?`); `none` models an absent property. -/
structure ToolCallBlock where
  toolCallId : String
  toolName : String
  args : Json
  pending : Option Bool := none
  needsApproval : Option Bool := none
  dangerous : Option Bool := none

/-- `ToolResultBlock` of the shared types. -/
structure ToolResultBlock where
  toolCallId : String
  toolName : String
  result : Json
  isError : Option Bool := none

/-- `ContentBlock` tagged union of the shared types. -/
inductive ContentBlock where
  | text (text : String)
  | tool_call (b : ToolCallBlock)
  | tool_result (b : ToolResultBlock)
  | image (url : String) (mimeType : Option String)

/-- `Message` of the shared types. -/
structure Message where
  id : String
  role : Role
  content : List ContentBlock
  createdAt : String

/-- JavaScript truthiness of an optional boolean property: absent and `false`
are both falsy. -/
def isTruthy (o : Option Bool) : Bool :=
  o.getD false

/-! ## Approval Gate (`packages/server/src/core/approvals.ts`) -/

/-- Timeout for pending approvals (5 minutes), `APPROVAL_TIMEOUT_MS`. -/
def APPROVAL_TIMEOUT_MS : Nat := 5 * 60 * 1000

/-- One entry of the `pendingApprovals` map (the stored resolver is modelled
by the resolution log of `GateState`). -/
structure PendingEntry where
  dangerous : Bool
  createdAt : Nat

/-- State of the approval gate: the `pendingApprovals` map (association list,
keys unique) and, in place of the JavaScript promise resolvers, an append-only
log of resolver fulfillments `(toolCallId, approved)` in the order they
happened. -/
structure GateState where
  pendingApprovals : List (String × PendingEntry)
  resolutionLog : List (String × Bool)

/-- `pendingApprovals.get(toolCallId)`. -/
def GateState.lookup (s : GateState) (id : String) : Option PendingEntry :=
  (s.pendingApprovals.find? (fun kv => kv.1 == id)).map Prod.snd

/-- Whether a toolCallId has a pending entry. -/
def GateState.isPending (s : GateState) (id : String) : Bool :=
  (s.lookup id).isSome

/-- `pendingApprovals.delete(toolCallId)` (keys are unique, so filtering out
the key is the map deletion). -/
def erasePending (l : List (String × PendingEntry)) (id : String) :
    List (String × PendingEntry) :=
  l.filter (fun kv => !(kv.1 == id))

/-- `createPendingApproval`: registers the entry under its toolCallId
(`Map.set` overwrites, hence the erase). The 5-minute timer it starts is
modelled as the separately fireable `approvalTimeoutFire`. -/
def createPendingApproval (s : GateState) (id : String) (dangerous : Bool)
    (now : Nat) : GateState :=
  { s with pendingApprovals := (id, ⟨dangerous, now⟩) :: erasePending s.pendingApprovals id }

/-- `resolveApproval(toolCallId, approved)`: looks the entry up; when absent
returns `false` and changes nothing; when present deletes it and fulfills its
resolver with the client's verdict, returning `true`. -/
def resolveApproval (s : GateState) (id : String) (approved : Bool) :
    Bool × GateState :=
  match s.lookup id with
  | none => (false, s)
  | some _ =>
      (true,
        { pendingApprovals := erasePending s.pendingApprovals id,
          resolutionLog := s.resolutionLog ++ [(id, approved)] })

/-- The `setTimeout` callback installed by `createPendingApproval`: when the
entry is still present, delete it and deny (`resolve(false)`). -/
def approvalTimeoutFire (s : GateState) (id : String) : GateState :=
  match s.lookup id with
  | none => s
  | some _ =>
      { pendingApprovals := erasePending s.pendingApprovals id,
        resolutionLog := s.resolutionLog ++ [(id, false)] }

/-- Whether an entry is expired at time `now` (`now - pending.createdAt >
APPROVAL_TIMEOUT_MS`). -/
def entryExpired (now : Nat) (kv : String × PendingEntry) : Bool :=
  decide (now - kv.2.createdAt > APPROVAL_TIMEOUT_MS)

/-- `cleanupExpiredApprovals`: every expired entry is removed and its resolver
denied. -/
def cleanupExpiredApprovals (s : GateState) (now : Nat) : GateState :=
  { pendingApprovals := s.pendingApprovals.filter (fun kv => !(entryExpired now kv)),
    resolutionLog :=
      s.resolutionLog ++
        (s.pendingApprovals.filter (entryExpired now)).map (fun kv => (kv.1, false)) }

/-- The operations that can race on the gate for already-registered entries:
an inbound `tool.approval` message, a per-entry timer firing, a cleanup sweep. -/
inductive GateOp where
  | resolve (id : String) (approved : Bool)
  | timeoutFire (id : String)
  | cleanup (now : Nat)

/-- Applying one gate operation. -/
def applyGateOp (s : GateState) (op : GateOp) : GateState :=
  match op with
  | .resolve id a => (resolveApproval s id a).2
  | .timeoutFire id => approvalTimeoutFire s id
  | .cleanup now => cleanupExpiredApprovals s now

/-- Applying a sequence of gate operations, left to right. -/
def applyGateOps (s : GateState) (ops : List GateOp) : GateState :=
  ops.foldl applyGateOp s

/-- How many times the resolver for `id` has been fulfilled. -/
def fulfillCount (s : GateState) (id : String) : Nat :=
  s.resolutionLog.countP (fun e => e.1 == id)

/-- Well-formedness plus the at-most-once property being tracked for one
toolCallId: map keys are unique, the resolver for `id` fired at most once,
and while `id` is still pending its resolver has not fired at all. -/
def gateInv (id : String) (s : GateState) : Prop :=
  (s.pendingApprovals.map Prod.fst).Nodup ∧
  fulfillCount s id ≤ 1 ∧
  (s.isPending id = true → fulfillCount s id = 0)

/-! ## Tool wrapper (`buildAiSdkTools` in the agent module, `src/unnamed/part_016`) -/

/-- Result shape of the Tool Invocation Port (`executeTool` of
`tools/executor.ts`): `{success, result?, error?}`. -/
structure ToolResult where
  success : Bool
  result : Json := Json.null
  error : String := ""

/-- What the wrapper returns when the port ran: `execResult.result` on
success, `{error: execResult.error}` on failure. -/
def runToolPort (r : ToolResult) : Json :=
  if r.success then r.result else Json.obj [("error", Json.str r.error)]

/-- Guidance text returned on an explicit denial (abridged; no claim depends
on the exact words). -/
def deniedMessage (name : String) : String :=
  "The user explicitly denied permission to execute this tool (" ++ name ++
  "). Do NOT retry this tool call or similar variations."

/-- Guidance text returned when no approval callback is configured (abridged). -/
def noCallbackMessage (name : String) : String :=
  "No approval callback was configured, so the tool (" ++ name ++
  ") could not be executed. This is a configuration error - do NOT retry this tool call."

/-- The structured rejection result the wrapper hands back to the provider. -/
def userRejectionResult (name : String) (args : Json) (message : String) : Json :=
  Json.obj
    [("error", Json.str "USER_REJECTION"),
     ("message", Json.str message),
     ("toolName", Json.str name),
     ("args", args)]

/-- The `execute` closure `buildAiSdkTools` wraps around each tool.
`approvalOutcome` is the awaited value of `onToolApprovalRequired` when that
callback is configured, `none` when it is absent; `portResult` is what
`executeTool` would return if invoked. The boolean of the pair records
whether the Tool Invocation Port was invoked. -/
def wrappedToolExecute (name : String) (requireApproval : Bool)
    (approvalOutcome : Option Bool) (args : Json) (portResult : ToolResult) :
    Json × Bool :=
  if requireApproval then
    match approvalOutcome with
    | some approved =>
        if approved then (runToolPort portResult, true)
        else (userRejectionResult name args (deniedMessage name), false)
    | none => (userRejectionResult name args (noCallbackMessage name), false)
  else (runToolPort portResult, true)

/-! ## Turn driver (`streamChat` in the agent module, `src/unnamed/part_016`) -/

/-- The low-level items of the provider's `fullStream` that `streamChat`
consumes; every other delta kind falls through the switch unchanged and is
modelled by `skipped`. -/
inductive RawDelta where
  | textDelta (text : String)
  | toolCall (toolCallId toolName : String) (input : Json)
  | toolResult (toolCallId toolName : String) (output : Json)
  | skipped

/-- One provider step of a multi-step `streamText` generation: the deltas it
streams and whether it ended asking for another tool step. -/
structure ProviderStep where
  deltas : List RawDelta
  wantsMore : Bool

/-- The `stopWhen: stepCountIs(10)` predicate handed to `streamText`: stop
once the number of executed steps has reached the bound. -/
def stepCountIs (n : Nat) (steps : Nat) : Bool :=
  decide (steps ≥ n)

/-- Modelled from the spec: the multi-step loop of the external `streamText`
(the model provider collaborator). Starting at step index `i`, it runs one
step, streams its deltas, and continues exactly when the provider asked for
another tool step and the configured `stopWhen` predicate does not hold for
the number of steps executed so far. `fuel` only makes the recursion
structural; the bound claimed by C6 must come from `stopWhen`. -/
def runProviderSteps (stopWhen : Nat → Bool) (provider : Nat → ProviderStep) :
    Nat → Nat → List RawDelta
  | 0, _ => []
  | Nat.succ fuel, i =>
      let s := provider i
      s.deltas ++
        (if s.wantsMore && !(stopWhen (i + 1)) then
          runProviderSteps stopWhen provider fuel (i + 1)
        else [])

/-- Number of provider steps the loop of `runProviderSteps` executes. -/
def numProviderSteps (stopWhen : Nat → Bool) (provider : Nat → ProviderStep) :
    Nat → Nat → Nat
  | 0, _ => 0
  | Nat.succ fuel, i =>
      let s := provider i
      1 +
        (if s.wantsMore && !(stopWhen (i + 1)) then
          numProviderSteps stopWhen provider fuel (i + 1)
        else 0)

/-- Unwrapping of `delta.output` in the `tool-result` branch of `streamChat`:
a wrapped `ToolResultOutput` object yields its `value` field; anything else
passes through (string payloads go through the platform's `JSON.parse`, an
external collaborator, with the string itself as fallback). -/
def extractToolResult (output : Json) : Json :=
  match output with
  | .obj fs =>
      match fs.find? (fun kv => kv.1 == "value") with
      | some kv => kv.2
      | none => .obj fs
  | j => j

/-- The Turn Events `streamChat` can yield (its declared union also names
`approval_required`, which the generator never yields; approvals travel
out-of-band through `onToolApprovalRequired`). -/
inductive TurnEvent where
  | delta (content : String)
  | tool_call (toolCall : ToolCallBlock)
  | tool_result (toolCallId toolName : String) (result : Json)
  | approval_required (toolCall : ToolCallBlock) (dangerous : Bool)
  | usage (promptTokens completionTokens totalTokens : Nat) (model : String)
  | complete (message : Message)

/-- Working state of the `for await` loop of `streamChat`: the buffered
content blocks, the running text buffer, and the events yielded so far. -/
structure StreamAcc where
  contentBlocks : List ContentBlock
  currentText : String
  events : List TurnEvent

/-- One iteration of the `for await (const delta of result.fullStream)` loop. -/
def streamStep (acc : StreamAcc) (d : RawDelta) : StreamAcc :=
  match d with
  | .textDelta t =>
      if t == "" then acc
      else
        { acc with
          currentText := acc.currentText ++ t,
          events := acc.events ++ [.delta t] }
  | .toolCall id name input =>
      let flushed :=
        if acc.currentText == "" then acc.contentBlocks
        else acc.contentBlocks ++ [.text acc.currentText]
      let tc : ToolCallBlock := { toolCallId := id, toolName := name, args := input }
      { contentBlocks := flushed ++ [.tool_call tc],
        currentText := "",
        events := acc.events ++ [.tool_call tc] }
  | .toolResult id name output =>
      let r := extractToolResult output
      { acc with
        contentBlocks :=
          acc.contentBlocks ++
            [.tool_result
              { toolCallId := id, toolName := name, result := r,
                isError := some (jsonIsErrorResult r) }],
        events := acc.events ++ [.tool_result id name r] }
  | .skipped => acc

/-- Token usage as the provider reports it (`inputTokens`, `outputTokens`,
`totalTokens`, each possibly absent). -/
structure UsageInfo where
  inputTokens : Option Nat
  outputTokens : Option Nat
  totalTokens : Option Nat

/-- Final text flush of `streamChat` (push remaining text, never prepend). -/
def finalizeBlocks (acc : StreamAcc) : List ContentBlock :=
  if acc.currentText == "" then acc.contentBlocks
  else acc.contentBlocks ++ [.text acc.currentText]

/-- The `usage` events `streamChat` yields after the stream ends:
`usageData = totalUsage ?? usage`, one event when that is present, with
missing figures defaulted to 0 and the model falling back to gpt-4o. -/
def usageEvents (totalUsage usage : Option UsageInfo)
    (resolvedModelId : Option String) : List TurnEvent :=
  match (match totalUsage with | some u => some u | none => usage) with
  | some u =>
      [.usage (u.inputTokens.getD 0) (u.outputTokens.getD 0) (u.totalTokens.getD 0)
        (resolvedModelId.getD "gpt-4o")]
  | none => []

/-- The event sequence of one `streamChat` turn: the streamed events of the
provider loop, then the usage event when the provider reported counts, then
exactly one `complete` whose message carries the accumulated blocks (or a
single empty text block when nothing accumulated). -/
def streamChatEvents (stopWhen : Nat → Bool) (provider : Nat → ProviderStep)
    (fuel : Nat) (totalUsage usage : Option UsageInfo)
    (resolvedModelId : Option String) (messageId now : String) : List TurnEvent :=
  let acc :=
    (runProviderSteps stopWhen provider fuel 0).foldl streamStep
      { contentBlocks := [], currentText := "", events := [] }
  let blocks := finalizeBlocks acc
  acc.events ++ usageEvents totalUsage usage resolvedModelId ++
    [.complete
      { id := messageId, role := .assistant,
        content := if blocks.isEmpty then [.text ""] else blocks,
        createdAt := now }]

/-- `streamChat` as the repository configures it: `stopWhen` is
`stepCountIs(10)`. -/
def streamChat (provider : Nat → ProviderStep) (fuel : Nat)
    (totalUsage usage : Option UsageInfo) (resolvedModelId : Option String)
    (messageId now : String) : List TurnEvent :=
  streamChatEvents (stepCountIs 10) provider fuel totalUsage usage
    resolvedModelId messageId now

/-! ## Content serialization (`packages/server/src/store/messages.ts`) -/

/-- Encoding of an optional boolean property (`JSON.stringify` omits absent
properties). -/
def encodeOptBoolField (name : String) (v : Option Bool) : List (String × Json) :=
  match v with
  | some b => [(name, Json.bool b)]
  | none => []

/-- JSON shape of one content block, as `JSON.stringify` lays it out. -/
def encodeBlock : ContentBlock → Json
  | .text t => .obj [("type", .str "text"), ("text", .str t)]
  | .tool_call c =>
      .obj
        ([("type", .str "tool_call"), ("toolCallId", .str c.toolCallId),
          ("toolName", .str c.toolName), ("args", c.args)] ++
          encodeOptBoolField "pending" c.pending ++
          encodeOptBoolField "needsApproval" c.needsApproval ++
          encodeOptBoolField "dangerous" c.dangerous)
  | .tool_result r =>
      .obj
        ([("type", .str "tool_result"), ("toolCallId", .str r.toolCallId),
          ("toolName", .str r.toolName), ("result", r.result)] ++
          encodeOptBoolField "isError" r.isError)
  | .image url mt =>
      .obj
        ([("type", .str "image"), ("url", .str url)] ++
          (match mt with
           | some s => [("mimeType", .str s)]
           | none => []))

/-- JSON shape of a message's ordered content, `JSON.stringify(m.content)`. -/
def encodeContent (content : List ContentBlock) : Json :=
  .arr (content.map encodeBlock)

/-- Reading a string field back. -/
def decodeStringField (j : Json) (name : String) : Option String :=
  match j.getField name with
  | some (.str s) => some s
  | _ => none

/-- Reading an optional boolean field back (absent is `none`). -/
def decodeOptBoolField (j : Json) (name : String) : Option (Option Bool) :=
  match j.getField name with
  | Option.none => some Option.none
  | some (.bool b) => some (some b)
  | some _ => none

/-- Reading one content block back from its JSON shape. -/
def decodeBlock (j : Json) : Option ContentBlock :=
  match decodeStringField j "type" with
  | some "text" => (decodeStringField j "text").map ContentBlock.text
  | some "tool_call" =>
      (decodeStringField j "toolCallId").bind fun tid =>
      (decodeStringField j "toolName").bind fun tname =>
      (j.getField "args").bind fun args =>
      (decodeOptBoolField j "pending").bind fun pending =>
      (decodeOptBoolField j "needsApproval").bind fun needsApproval =>
      (decodeOptBoolField j "dangerous").map fun dangerous =>
        ContentBlock.tool_call
          { toolCallId := tid, toolName := tname, args := args,
            pending := pending, needsApproval := needsApproval,
            dangerous := dangerous }
  | some "tool_result" =>
      (decodeStringField j "toolCallId").bind fun tid =>
      (decodeStringField j "toolName").bind fun tname =>
      (j.getField "result").bind fun result =>
      (decodeOptBoolField j "isError").map fun isError =>
        ContentBlock.tool_result
          { toolCallId := tid, toolName := tname, result := result,
            isError := isError }
  | some "image" =>
      (decodeStringField j "url").map fun url =>
        ContentBlock.image url (decodeStringField j "mimeType")
  | _ => none

/-- Reading a content array back. -/
def decodeContent (j : Json) : Option (List ContentBlock) :=
  match j with
  | .arr xs => xs.mapM decodeBlock
  | _ => none

/-- Input of `createMessage` (`Omit<Message, 'createdAt'> & {createdAt?,
sessionId}`). -/
structure NewMessage where
  id : String
  sessionId : String
  role : Role
  content : List ContentBlock
  createdAt : Option String

/-- Raw database row of the messages table; `content` holds the serialized
JSON (modelled at the JSON-value level, the TEXT column being the external
platform's `JSON.stringify` of it). -/
structure MessageRow where
  id : String
  session_id : String
  role : String
  content : Json
  created_at : String

/-- `createMessage`: fills `createdAt` when absent, inserts the row with the
content serialized, and returns the message. -/
def createMessage (msg : NewMessage) (now : String) : MessageRow × Message :=
  let createdAt := msg.createdAt.getD now
  ({ id := msg.id, session_id := msg.sessionId, role := roleToString msg.role,
     content := encodeContent msg.content, created_at := createdAt },
   { id := msg.id, role := msg.role, content := msg.content, createdAt := createdAt })

/-- `mapRowToMessage`: deserializes the stored row back into a message (the
source casts unchecked; the model validates and returns `none` on shapes the
store never writes). -/
def mapRowToMessage (row : MessageRow) : Option Message :=
  (decodeContent row.content).bind fun content =>
    (roleOfString row.role).map fun role =>
      { id := row.id, role := role, content := content, createdAt := row.created_at }

/-! ## Session broadcast (`src/unnamed/part_007`) -/

/-- One websocket connection of the `clients` registry: its identity, the
session it is bound to (if any), and whether `readyState === OPEN`. -/
structure Conn where
  connId : Nat
  sessionId : Option String
  isOpen : Bool
deriving DecidableEq, Repr

/-- JSON wire shape of a full message, as `chat.complete` sends it. -/
def encodeMessageJson (m : Message) : Json :=
  .obj
    [("id", .str m.id), ("role", .str (roleToString m.role)),
     ("content", encodeContent m.content), ("createdAt", .str m.createdAt)]

/-- The wire message `handleChat` broadcasts for one turn event, when its
switch has a case for it (the union's `approval_required` constructor has no
case there and produces nothing). -/
def wireOfTurnEvent (sessionId messageId : String) : TurnEvent → Option Json
  | .delta content =>
      some (.obj
        [("type", .str "chat.delta"), ("sessionId", .str sessionId),
         ("messageId", .str messageId), ("delta", .str content)])
  | .tool_call tc =>
      some (.obj
        [("type", .str "chat.tool_call"), ("sessionId", .str sessionId),
         ("messageId", .str messageId), ("toolCall", encodeBlock (.tool_call tc))])
  | .tool_result tid tname result =>
      some (.obj
        [("type", .str "chat.tool_result"), ("sessionId", .str sessionId),
         ("messageId", .str messageId), ("toolCallId", .str tid),
         ("toolName", .str tname), ("result", result)])
  | .approval_required _ _ => none
  | .usage p c t model =>
      some (.obj
        [("type", .str "chat.usage"), ("sessionId", .str sessionId),
         ("usage", .obj
           [("promptTokens", .num p), ("completionTokens", .num c),
            ("totalTokens", .num t)]),
         ("model", .str model)])
  | .complete m =>
      some (.obj
        [("type", .str "chat.complete"), ("sessionId", .str sessionId),
         ("message", encodeMessageJson m)])

/-- `broadcast(message, excludeWs?)`: stringify once, send to every client in
the registry that is not the excluded socket and whose `readyState` is OPEN —
the subscribed session is not consulted. Returns the (connection, payload)
sends in registry order. -/
def broadcast (clients : List Conn) (message : String) (excludeWs : Option Nat) :
    List (Nat × String) :=
  (clients.filter fun c =>
      (match excludeWs with
       | some w => !(c.connId == w)
       | none => true) && c.isOpen).map
    fun c => (c.connId, message)

/-- The event pump of `handleChat`: each turn event, in production order, is
serialized and broadcast (no `excludeWs`). -/
def broadcastTurnEvents (clients : List Conn) (sessionId messageId : String)
    (events : List TurnEvent) : List (Nat × String) :=
  events.foldr
    (fun e rest =>
      (match wireOfTurnEvent sessionId messageId e with
       | some w => broadcast clients (jsonStringify w) none
       | none => []) ++ rest)
    []

/-- The serialized payloads one connection received, in order. -/
def deliveredTo (log : List (Nat × String)) (cid : Nat) : List String :=
  (log.filter fun d => d.1 == cid).map Prod.snd

/-- The serialized wire messages of a turn's events, in production order. -/
def serializedTurn (sessionId messageId : String) (events : List TurnEvent) :
    List String :=
  events.foldr
    (fun e rest =>
      (match wireOfTurnEvent sessionId messageId e with
       | some w => [jsonStringify w]
       | none => []) ++ rest)
    []

/-- `getWsForSession`: the first connection of the registry bound to the
session, if any (registry iteration order is insertion order). -/
def getWsForSession (clients : List Conn) (sessionId : String) : Option Nat :=
  (clients.find? fun c => c.sessionId == some sessionId).map Conn.connId

/-- The `tool.approval_required` wire notification. -/
structure ApprovalRequiredMsg where
  toolCallId : String
  toolName : String
  args : Json
  dangerous : Bool

/-- The `onToolApprovalRequired` callback `handleChat` installs: send the
notification to the connection `getWsForSession` finds (none when no
connection is bound to the session — only a warning is logged), then register
the pending approval and await it. Returns the sends and the new gate state. -/
def onToolApprovalRequired (clients : List Conn) (sessionId : String)
    (tc : ToolCallBlock) (dangerous : Bool) (gate : GateState) (now : Nat) :
    List (Nat × ApprovalRequiredMsg) × GateState :=
  ((match getWsForSession clients sessionId with
    | some ws => [(ws, ⟨tc.toolCallId, tc.toolName, tc.args, dangerous⟩)]
    | none => []),
   createPendingApproval gate tc.toolCallId dangerous now)

/-! ## Transcript accumulator (`handleServerMessage` in
`packages/client/src/App.tsx`), modelled as functions on the current
session's message list. -/

/-- The duplicate check of the `chat.tool_call` branch: is there already a
`tool_call` block with this tool name carrying a truthy `needsApproval`? -/
def hasApprovalBlockFor (name : String) (content : List ContentBlock) : Bool :=
  content.any fun b =>
    match b with
    | .tool_call c => c.toolName == name && isTruthy c.needsApproval
    | _ => false

/-- The `chat.tool_call` branch: in the streaming message, keep the
approval-created block as-is when one exists for this tool name, otherwise
append a fresh pending block with the event's fields. -/
def applyChatToolCall (messageId : String) (tc : ToolCallBlock)
    (msgs : List Message) : List Message :=
  msgs.map fun m =>
    if m.id == messageId then
      if hasApprovalBlockFor tc.toolName m.content then m
      else
        { m with
          content :=
            m.content ++
              [.tool_call
                { toolCallId := tc.toolCallId, toolName := tc.toolName,
                  args := tc.args, pending := some true }] }
    else m

/-- The in-place update of the `tool.approval_required` branch: the first
`tool_call` block with this tool name and no truthy `needsApproval` adopts
the approval's toolCallId and markers; `none` when no block matches. -/
def approvalUpdateBlocks (apId name : String) (dangerous : Bool) :
    List ContentBlock → Option (List ContentBlock)
  | [] => none
  | b :: rest =>
      match b with
      | .tool_call c =>
          if c.toolName == name && !(isTruthy c.needsApproval) then
            some
              (.tool_call
                { c with
                  toolCallId := apId, needsApproval := some true,
                  dangerous := some dangerous, pending := some false } :: rest)
          else (approvalUpdateBlocks apId name dangerous rest).map (b :: ·)
      | _ => (approvalUpdateBlocks apId name dangerous rest).map (b :: ·)

/-- The provisional block the `tool.approval_required` branch appends when the
approval outran its `tool_call` event. -/
def approvalNewBlock (apId name : String) (args : Json) (dangerous : Bool) :
    ContentBlock :=
  .tool_call
    { toolCallId := apId, toolName := name, args := args,
      pending := some false, needsApproval := some true,
      dangerous := some dangerous }

/-- The backward scan of the `tool.approval_required` branch, phrased on the
reversed message list: the first assistant message from the end is updated in
place when a block matches, or given the provisional block; non-assistant
messages are skipped; `none` when no assistant message exists. -/
def applyApprovalRev (apId name : String) (args : Json) (dangerous : Bool) :
    List Message → Option (List Message)
  | [] => none
  | m :: rest =>
      if m.role == .assistant then
        some
          ((match approvalUpdateBlocks apId name dangerous m.content with
            | some content' => { m with content := content' }
            | none =>
                { m with
                  content := m.content ++ [approvalNewBlock apId name args dangerous] }) ::
            rest)
      else (applyApprovalRev apId name args dangerous rest).map (m :: ·)

/-- The `tool.approval_required` branch on the session's message list. -/
def applyApprovalRequired (apId name : String) (args : Json) (dangerous : Bool)
    (msgs : List Message) : List Message :=
  match applyApprovalRev apId name args dangerous msgs.reverse with
  | some rev => rev.reverse
  | none => msgs

/-- The `chat.tool_result` branch: only when the streaming message already
holds the matching `tool_call` block is that block's `pending` property
dropped and the result block appended; otherwise nothing changes. -/
def applyChatToolResult (messageId toolCallId toolName : String) (result : Json)
    (msgs : List Message) : List Message :=
  msgs.map fun m =>
    if m.id == messageId then
      if m.content.any (fun b =>
          match b with
          | .tool_call c => c.toolCallId == toolCallId
          | _ => false) then
        { m with
          content :=
            (m.content.map fun b =>
              match b with
              | .tool_call c =>
                  if c.toolCallId == toolCallId then
                    .tool_call { c with pending := none }
                  else b
              | _ => b) ++
              [.tool_result
                { toolCallId := toolCallId, toolName := toolName,
                  result := result, isError := some (jsonIsErrorResult result) }] }
      else m
    else m

/-! ## Render-time grouping (`groupToolCallsAndResults` in
`packages/client/src/components/Message.tsx`) -/

/-- Output items of the grouping pass: a plain block, or a collapsible unit
of one tool call and its (possibly missing) result. -/
inductive ContentItem where
  | block (b : ContentBlock)
  | grouped (toolCall : ToolCallBlock) (toolResult : Option ToolResultBlock)

/-- `toolResultMap.set(toolCallId, block)` — a later result with the same id
overwrites an earlier one. -/
def toolResultMapSet (m : List (String × ToolResultBlock)) (r : ToolResultBlock) :
    List (String × ToolResultBlock) :=
  (r.toolCallId, r) :: m.filter (fun kv => !(kv.1 == r.toolCallId))

/-- First pass: the map of tool results indexed by toolCallId. -/
def buildToolResultMap (content : List ContentBlock) :
    List (String × ToolResultBlock) :=
  content.foldl
    (fun m b =>
      match b with
      | .tool_result r => toolResultMapSet m r
      | _ => m)
    []

/-- `toolResultMap.get(toolCallId)`. -/
def mapFind (m : List (String × ToolResultBlock)) (id : String) :
    Option ToolResultBlock :=
  (m.find? fun kv => kv.1 == id).map Prod.snd

/-- Second pass of the grouping, with `used` the set of result ids already
consumed by a grouped unit. -/
def groupGo (m : List (String × ToolResultBlock)) :
    List ContentBlock → List String → List ContentItem
  | [], _ => []
  | b :: rest, used =>
      match b with
      | .tool_call c =>
          match mapFind m c.toolCallId with
          | some r => .grouped c (some r) :: groupGo m rest (c.toolCallId :: used)
          | none => .grouped c none :: groupGo m rest used
      | .tool_result r =>
          if used.contains r.toolCallId then groupGo m rest used
          else .block (.tool_result r) :: groupGo m rest used
      | b => .block b :: groupGo m rest used

/-- `groupToolCallsAndResults`. -/
def groupToolCallsAndResults (content : List ContentBlock) : List ContentItem :=
  groupGo (buildToolResultMap content) content []

/-- Ids of the `tool_call` blocks of a content sequence, in order. -/
def callIds (content : List ContentBlock) : List String :=
  content.filterMap fun b =>
    match b with
    | .tool_call c => some c.toolCallId
    | _ => none

/-- Ids of the `tool_result` blocks of a content sequence, in order. -/
def resultIds (content : List ContentBlock) : List String :=
  content.filterMap fun b =>
    match b with
    | .tool_result r => some r.toolCallId
    | _ => none

/-- Whether a block is a tool call with the given id. -/
def isCallWithId (id : String) (b : ContentBlock) : Bool :=
  match b with
  | .tool_call c => c.toolCallId == id
  | _ => false

/-- Whether a block is a tool result with the given id. -/
def isResultWithId (id : String) (b : ContentBlock) : Bool :=
  match b with
  | .tool_result r => r.toolCallId == id
  | _ => false

/-- Number of tool-call blocks with the given id. -/
def callCount (id : String) (l : List ContentBlock) : Nat :=
  l.countP (isCallWithId id)

/-- Number of tool-result blocks with the given id. -/
def resultCount (id : String) (l : List ContentBlock) : Nat :=
  l.countP (isResultWithId id)

/-- How many grouped units render a result with the given id. -/
def groupedResultCount (id : String) (items : List ContentItem) : Nat :=
  items.countP fun it =>
    match it with
    | .grouped _ (some r) => r.toolCallId == id
    | _ => false

/-- How many standalone blocks render a result with the given id. -/
def standaloneResultCount (id : String) (items : List ContentItem) : Nat :=
  items.countP fun it =>
    match it with
    | .block (.tool_result r) => r.toolCallId == id
    | _ => false

/-- Scan underlying `callBeforeResult`: `seen` accumulates the call ids
already passed; every result whose id has a call anywhere in the transcript
must have one among `seen`. -/
def cbrAux (allCalls : List String) : List String → List ContentBlock → Bool
  | _, [] => true
  | seen, b :: rest =>
      match b with
      | .tool_call c => cbrAux allCalls (c.toolCallId :: seen) rest
      | .tool_result r =>
          (!(allCalls.contains r.toolCallId) || seen.contains r.toolCallId) &&
            cbrAux allCalls seen rest
      | _ => cbrAux allCalls seen rest

/-- Transcript shape the accumulator produces: a tool result whose id has a
matching call appears only after that call. -/
def callBeforeResult (content : List ContentBlock) : Bool :=
  cbrAux (callIds content) [] content

/-! ## Provider-format conversion (`convertToAiSdkMessages` in the agent
module) -/

/-- The `ToolResultOutput` wrapper of the AI SDK: an error result is sent as
stringified text, a success result as a JSON value. -/
inductive ToolResultOutput where
  | text (value : String)
  | json (value : Json)

/-- One `{type: 'tool-result', toolCallId, toolName, output}` part. -/
structure AiSdkToolResultPart where
  toolCallId : String
  toolName : String
  output : ToolResultOutput

/-- Roles of provider-native messages (the original three plus `tool`). -/
inductive AiSdkRole where
  | user
  | assistant
  | system
  | tool
deriving DecidableEq, Repr

/-- Content of a provider-native message: joined text, or tool-result parts. -/
inductive AiSdkContent where
  | text (s : String)
  | parts (ps : List AiSdkToolResultPart)

/-- One provider-native message. -/
structure AiSdkMessage where
  role : AiSdkRole
  content : AiSdkContent

/-- The `msg.role as 'user' | 'assistant' | 'system'` cast. -/
def roleToAiSdk : Role → AiSdkRole
  | .user => .user
  | .assistant => .assistant
  | .system => .system

/-- Wrapping of one stored tool-result block for the provider. -/
def wrapToolResult (r : ToolResultBlock) : AiSdkToolResultPart :=
  { toolCallId := r.toolCallId, toolName := r.toolName,
    output :=
      if isTruthy r.isError then .text (jsonStringify r.result)
      else .json r.result }

/-- The per-message collection loop of `convertToAiSdkMessages`: text blocks
and wrapped tool-result blocks in order; `tool_call` blocks only feed the
(unread) `toolCallIdToName` map and `image` blocks are ignored. -/
def collectBlocks (content : List ContentBlock) :
    List String × List AiSdkToolResultPart :=
  content.foldl
    (fun acc b =>
      match b with
      | .text t => (acc.1 ++ [t], acc.2)
      | .tool_call _ => acc
      | .tool_result r => (acc.1, acc.2 ++ [wrapToolResult r])
      | .image _ _ => acc)
    ([], [])

/-- The per-message branch of `convertToAiSdkMessages`. -/
def convertOneMessage (m : Message) : List AiSdkMessage :=
  let textBlocks := (collectBlocks m.content).1
  let toolResultBlocks := (collectBlocks m.content).2
  if toolResultBlocks.isEmpty then
    [⟨roleToAiSdk m.role, .text (String.intercalate "\n\n" textBlocks)⟩]
  else if textBlocks.isEmpty then
    toolResultBlocks.map (fun p => ⟨.tool, .parts [p]⟩)
  else
    ⟨roleToAiSdk m.role, .text (String.intercalate "\n\n" textBlocks)⟩ ::
      toolResultBlocks.map (fun p => ⟨.tool, .parts [p]⟩)

/-- `convertToAiSdkMessages`: the outer loop appending each message's
conversion. -/
def convertToAiSdkMessages (messages : List Message) : List AiSdkMessage :=
  messages.foldl (fun result m => result ++ convertOneMessage m) []

/-- Text blocks of a content sequence, in order. -/
def textsOf (content : List ContentBlock) : List String :=
  content.filterMap fun b =>
    match b with
    | .text t => some t
    | _ => none

/-- Wrapped tool-result parts of a content sequence, in order. -/
def resultPartsOf (content : List ContentBlock) : List AiSdkToolResultPart :=
  content.filterMap fun b =>
    match b with
    | .tool_result r => some (wrapToolResult r)
    | _ => none

/-- Modelled from the spec's words (claim C7), for comparison with the source
translation `convertToAiSdkMessages`: a message with no tool results becomes
one message with its original role and its text blocks joined; a message with
only tool results becomes one synthetic tool message per result, in block
order; a mixed message becomes the text message followed by one tool message
per result; tool-call blocks are never re-emitted. -/
def convertSpecMessage (m : Message) : List AiSdkMessage :=
  if (resultPartsOf m.content).isEmpty then
    [⟨roleToAiSdk m.role, .text (String.intercalate "\n\n" (textsOf m.content))⟩]
  else if (textsOf m.content).isEmpty then
    (resultPartsOf m.content).map (fun p => ⟨.tool, .parts [p]⟩)
  else
    ⟨roleToAiSdk m.role, .text (String.intercalate "\n\n" (textsOf m.content))⟩ ::
      (resultPartsOf m.content).map (fun p => ⟨.tool, .parts [p]⟩)

/-- The spec's description of the whole conversion. -/
def convertSpec (messages : List Message) : List AiSdkMessage :=
  messages.foldr (fun m rest => convertSpecMessage m ++ rest) []

/-- Whether a turn event is the terminal `complete`. -/
def isCompleteEvent : TurnEvent → Bool
  | .complete _ => true
  | _ => false

/-- Whether a turn event is a `usage` report. -/
def isUsageEvent : TurnEvent → Bool
  | .usage _ _ _ _ => true
  | _ => false

/-- Whether a turn event is one of the streamed kinds the provider loop
yields (`delta`, `tool_call`, `tool_result`). -/
def isStreamingEvent : TurnEvent → Bool
  | .delta _ => true
  | .tool_call _ => true
  | .tool_result _ _ _ => true
  | _ => false

/-- The accumulator state at the end of the provider loop of one
`streamChat` turn (with the repository's `stepCountIs(10)`). -/
def turnAcc (provider : Nat → ProviderStep) (fuel : Nat) : StreamAcc :=
  (runProviderSteps (stepCountIs 10) provider fuel 0).foldl streamStep
    { contentBlocks := [], currentText := "", events := [] }

/-- The final assembled message of one `streamChat` turn. -/
def turnFinalMessage (provider : Nat → ProviderStep) (fuel : Nat)
    (messageId now : String) : Message :=
  { id := messageId, role := .assistant,
    content :=
      if (finalizeBlocks (turnAcc provider fuel)).isEmpty then [.text ""]
      else finalizeBlocks (turnAcc provider fuel),
    createdAt := now }

/-! ## Theorems -/

/-- Claim C1: for a tool whose manifest sets `requireApproval`, a denial
outcome — explicit deny or timeout (both fulfill the awaited callback with
`false`), or an absent approval channel — means the Tool Invocation Port is
never invoked: the wrapper instead returns the structured `USER_REJECTION`
result to the provider. The last conjunct records that the gate's timeout
path only ever fulfills a resolver with `false` (denial), never approval. -/
theorem denied_approval_never_invokes_tool (name : String) (args : Json)
    (portResult : ToolResult) (approvalOutcome : Option Bool)
    (hdenied : approvalOutcome = none ∨ approvalOutcome = some false) :
    (wrappedToolExecute name true approvalOutcome args portResult).2 = false ∧
    (wrappedToolExecute name true approvalOutcome args portResult).1.getField "error" =
      some (Json.str "USER_REJECTION") ∧
    (∀ (s : GateState) (id : String),
      (approvalTimeoutFire s id).resolutionLog = s.resolutionLog ∨
      (approvalTimeoutFire s id).resolutionLog = s.resolutionLog ++ [(id, false)]) := by
  have htimer : ∀ (s : GateState) (id : String),
      (approvalTimeoutFire s id).resolutionLog = s.resolutionLog ∨
      (approvalTimeoutFire s id).resolutionLog = s.resolutionLog ++ [(id, false)] := by
    intro s id
    unfold approvalTimeoutFire
    cases s.lookup id with
    | none => exact Or.inl rfl
    | some e => exact Or.inr rfl
  rcases hdenied with h | h <;> subst h
  · exact ⟨rfl, rfl, htimer⟩
  · exact ⟨rfl, rfl, htimer⟩

/-- Witness for C1 at a concrete denied call. -/
theorem denied_approval_never_invokes_tool_witness :
    (wrappedToolExecute "shell" true (some false) (Json.obj [])
      { success := true, result := Json.str "ok" }).2 = false :=
  (denied_approval_never_invokes_tool "shell" (Json.obj [])
    { success := true, result := Json.str "ok" } (some false) (Or.inr rfl)).1

theorem erasePending_find_self (l : List (String × PendingEntry)) (id : String) :
    (erasePending l id).find? (fun kv => kv.1 == id) = none := by
  rw [List.find?_eq_none]
  intro x hx
  have hmem := List.mem_filter.mp hx
  simpa using hmem.2

theorem erasePending_find_ne (l : List (String × PendingEntry)) (id id' : String)
    (h : id ≠ id') :
    (erasePending l id').find? (fun kv => kv.1 == id) =
      l.find? (fun kv => kv.1 == id) := by
  induction l with
  | nil => rfl
  | cons kv rest ih =>
      by_cases h1 : kv.1 = id'
      · have h2 : (kv.1 == id) = false := by
          simp only [beq_eq_false_iff_ne, ne_eq, h1]
          exact fun hc => h hc.symm
        have h3 : (id' == id) = false := by
          simp only [beq_eq_false_iff_ne, ne_eq]
          exact fun hc => h hc.symm
        simp [erasePending, List.filter_cons, h1, List.find?, h2, h3] at ih ⊢
        exact ih
      · simp only [erasePending, List.filter_cons,
          show (!(kv.1 == id')) = true by simp [h1], if_true]
        by_cases h2 : kv.1 = id
        · simp [List.find?, h2]
        · simp only [List.find?, show (kv.1 == id) = false by simp [h2]]
          simpa [erasePending] using ih

/-- Pending entries of any gate operation's result come from the previous
state (no operation re-registers an entry). -/
theorem applyGateOp_pending_subset (s : GateState) (op : GateOp)
    (kv : String × PendingEntry) (h : kv ∈ (applyGateOp s op).pendingApprovals) :
    kv ∈ s.pendingApprovals := by
  cases op with
  | resolve id a =>
      cases hl : s.lookup id with
      | none => simpa [applyGateOp, resolveApproval, hl] using h
      | some e =>
          simp only [applyGateOp, resolveApproval, hl] at h
          exact (List.mem_filter.mp h).1
  | timeoutFire id =>
      cases hl : s.lookup id with
      | none => simpa [applyGateOp, approvalTimeoutFire, hl] using h
      | some e =>
          simp only [applyGateOp, approvalTimeoutFire, hl] at h
          exact (List.mem_filter.mp h).1
  | cleanup now =>
      simp only [applyGateOp, cleanupExpiredApprovals] at h
      exact (List.mem_filter.mp h).1

/-- Splitting a count along a filter and its complement. -/
theorem countP_filter_split {α : Type} (p q : α → Bool) (l : List α) :
    l.countP p = (l.filter q).countP p + (l.filter fun a => !(q a)).countP p := by
  induction l with
  | nil => rfl
  | cons a rest ih =>
      by_cases hq : q a = true <;> by_cases hp : p a = true <;>
        simp [List.filter_cons, List.countP_cons, hq, hp, ih] <;> omega

theorem isPending_iff (s : GateState) (id : String) :
    s.isPending id = true ↔ ∃ kv ∈ s.pendingApprovals, (kv.1 == id) = true := by
  simp [GateState.isPending, GateState.lookup, List.find?_isSome]

theorem keyCount_le_one (l : List (String × PendingEntry)) (id : String)
    (hnd : (l.map Prod.fst).Nodup) :
    l.countP (fun kv => kv.1 == id) ≤ 1 := by
  induction l with
  | nil => simp
  | cons kv rest ih =>
      rw [List.map_cons] at hnd
      rcases List.nodup_cons.mp hnd with ⟨hnotin, hnd'⟩
      by_cases hk : kv.1 = id
      · have h0 : rest.countP (fun kv => kv.1 == id) = 0 := by
          rw [List.countP_eq_zero]
          intro x hx
          simp only [beq_iff_eq]
          intro hxid
          exact hnotin (hk ▸ hxid ▸ List.mem_map_of_mem Prod.fst hx)
        simp [List.countP_cons, hk, h0]
      · have hle := ih hnd'
        have hz : (if (kv.1 == id) = true then 1 else 0) = 0 := by simp [hk]
        rw [List.countP_cons, hz]
        omega

theorem isPending_eq_find (s : GateState) (id : String) :
    s.isPending id = (s.pendingApprovals.find? (fun kv => kv.1 == id)).isSome := by
  unfold GateState.isPending GateState.lookup
  cases s.pendingApprovals.find? (fun kv => kv.1 == id) <;> rfl

theorem gateInv_afterResolution (id id' : String)
    (P : List (String × PendingEntry)) (L : List (String × Bool)) (a : Bool)
    (kv0 : String × PendingEntry)
    (hnd : (P.map Prod.fst).Nodup)
    (hle : L.countP (fun e => e.1 == id) ≤ 1)
    (hpend : (P.find? (fun kv => kv.1 == id)).isSome = true →
      L.countP (fun e => e.1 == id) = 0)
    (hfound : P.find? (fun kv => kv.1 == id') = some kv0) :
    gateInv id ⟨erasePending P id', L ++ [(id', a)]⟩ := by
  refine ⟨?_, ?_, ?_⟩
  · exact ((List.filter_sublist P).map Prod.fst).nodup hnd
  · show (L ++ [(id', a)]).countP (fun e => e.1 == id) ≤ 1
    rw [List.countP_append]
    by_cases hid : id' = id
    · subst hid
      have h0 := hpend (by rw [hfound]; rfl)
      have h1 : ([(id', a)].countP (fun e => e.1 == id')) ≤ 1 := by
        simp [List.countP_cons]
      omega
    · have h1 : ([(id', a)].countP (fun e => e.1 == id)) = 0 := by
        simp [List.countP_cons, hid]
      omega
  · intro hps
    rw [isPending_eq_find] at hps
    show (L ++ [(id', a)]).countP (fun e => e.1 == id) = 0
    by_cases hid : id' = id
    · exfalso
      subst hid
      rw [show (⟨erasePending P id', L ++ [(id', a)]⟩ : GateState).pendingApprovals =
            erasePending P id' from rfl,
          erasePending_find_self] at hps
      exact Bool.noConfusion hps
    · have hlift : (erasePending P id').find? (fun kv => kv.1 == id) =
          P.find? (fun kv => kv.1 == id) :=
        erasePending_find_ne P id id' (fun hc => hid hc.symm)
      have hp : (P.find? (fun kv => kv.1 == id)).isSome = true := by
        rw [show (⟨erasePending P id', L ++ [(id', a)]⟩ : GateState).pendingApprovals =
              erasePending P id' from rfl, hlift] at hps
        exact hps
      have h0 := hpend hp
      have h1 : ([(id', a)].countP (fun e => e.1 == id)) = 0 := by
        simp [List.countP_cons, hid]
      rw [List.countP_append, h0, h1]

theorem gateInv_cleanup (id : String) (s : GateState) (now : Nat)
    (hnd : (s.pendingApprovals.map Prod.fst).Nodup)
    (hle : fulfillCount s id ≤ 1)
    (hpend : s.isPending id = true → fulfillCount s id = 0) :
    gateInv id (cleanupExpiredApprovals s now) := by
  have hAppend :
      ((s.pendingApprovals.filter (entryExpired now)).map
          (fun kv => (kv.1, false))).countP (fun e => e.1 == id) =
        (s.pendingApprovals.filter (entryExpired now)).countP
          (fun kv => kv.1 == id) := by
    rw [List.countP_map]
    rfl
  have hKey := keyCount_le_one s.pendingApprovals id hnd
  have hSplit := countP_filter_split (fun kv => kv.1 == id) (entryExpired now)
    s.pendingApprovals
  refine ⟨?_, ?_, ?_⟩
  · exact ((List.filter_sublist s.pendingApprovals).map Prod.fst).nodup hnd
  · show (s.resolutionLog ++
        (s.pendingApprovals.filter (entryExpired now)).map
          (fun kv => (kv.1, false))).countP (fun e => e.1 == id) ≤ 1
    rw [List.countP_append, hAppend]
    by_cases hp : (s.pendingApprovals.find? (fun kv => kv.1 == id)).isSome = true
    · have h0 := hpend (by rw [isPending_eq_find]; exact hp)
      rw [fulfillCount] at h0
      omega
    · have hfn : s.pendingApprovals.find? (fun kv => kv.1 == id) = none :=
        Option.not_isSome_iff_eq_none.mp (by simpa using hp)
      have hz : s.pendingApprovals.countP (fun kv => kv.1 == id) = 0 := by
        rw [List.countP_eq_zero]
        intro kv hkv
        have := List.find?_eq_none.mp hfn kv hkv
        simpa using this
      rw [fulfillCount] at hle
      omega
  · intro hps
    rw [isPending_eq_find] at hps
    obtain ⟨kv, hkvmem0, hkvid⟩ := List.find?_isSome.mp hps
    have hkvmem : kv ∈ s.pendingApprovals.filter (fun kv => !(entryExpired now kv)) :=
      hkvmem0
    have hsurvCount :
        0 < (s.pendingApprovals.filter
            (fun kv => !(entryExpired now kv))).countP (fun kv => kv.1 == id) :=
      List.countP_pos_iff.mpr ⟨kv, hkvmem, hkvid⟩
    have hmem : kv ∈ s.pendingApprovals := (List.mem_filter.mp hkvmem).1
    have hpendS : s.isPending id = true := by
      rw [isPending_eq_find]
      exact List.find?_isSome.mpr ⟨kv, hmem, hkvid⟩
    have h0 := hpend hpendS
    rw [fulfillCount] at h0
    show (s.resolutionLog ++
        (s.pendingApprovals.filter (entryExpired now)).map
          (fun kv => (kv.1, false))).countP (fun e => e.1 == id) = 0
    rw [List.countP_append, hAppend]
    omega

/-- Every single gate operation preserves the per-id invariant. -/
theorem gateInv_applyGateOp (id : String) (s : GateState) (op : GateOp)
    (h : gateInv id s) : gateInv id (applyGateOp s op) := by
  obtain ⟨hnd, hle, hpend⟩ := h
  have hpend' : (s.pendingApprovals.find? (fun kv => kv.1 == id)).isSome = true →
      s.resolutionLog.countP (fun e => e.1 == id) = 0 := by
    intro hp
    exact hpend (by rw [isPending_eq_find]; exact hp)
  cases op with
  | resolve id' a =>
      cases hl : s.pendingApprovals.find? (fun kv => kv.1 == id') with
      | none =>
          have hnone : s.lookup id' = none := by
            unfold GateState.lookup
            rw [hl]
            rfl
          exact (by simpa [applyGateOp, resolveApproval, hnone] using
            (⟨hnd, hle, hpend⟩ : gateInv id s))
      | some kv0 =>
          have hsome : s.lookup id' = some kv0.2 := by
            unfold GateState.lookup
            rw [hl]
            rfl
          simp only [applyGateOp, resolveApproval, hsome]
          exact gateInv_afterResolution id id' _ _ a kv0 hnd hle hpend' hl
  | timeoutFire id' =>
      cases hl : s.pendingApprovals.find? (fun kv => kv.1 == id') with
      | none =>
          have hnone : s.lookup id' = none := by
            unfold GateState.lookup
            rw [hl]
            rfl
          exact (by simpa [applyGateOp, approvalTimeoutFire, hnone] using
            (⟨hnd, hle, hpend⟩ : gateInv id s))
      | some kv0 =>
          have hsome : s.lookup id' = some kv0.2 := by
            unfold GateState.lookup
            rw [hl]
            rfl
          simp only [applyGateOp, approvalTimeoutFire, hsome]
          exact gateInv_afterResolution id id' _ _ false kv0 hnd hle hpend' hl
  | cleanup now => exact gateInv_cleanup id s now hnd hle hpend

/-- The invariant holds along any interleaving of gate operations. -/
theorem gateInv_applyGateOps (id : String) (ops : List GateOp) (s : GateState)
    (h : gateInv id s) : gateInv id (applyGateOps s ops) := by
  induction ops generalizing s with
  | nil => exact h
  | cons op rest ih => exact ih (applyGateOp s op) (gateInv_applyGateOp id s op h)

theorem applyGateOp_isPending_mono (id : String) (s : GateState) (op : GateOp)
    (hp : (applyGateOp s op).isPending id = true) : s.isPending id = true := by
  rw [isPending_eq_find] at hp ⊢
  obtain ⟨kv, hm, hk⟩ := List.find?_isSome.mp hp
  exact List.find?_isSome.mpr ⟨kv, applyGateOp_pending_subset s op kv hm, hk⟩

theorem applyGateOps_isPending_mono (id : String) (ops : List GateOp)
    (s : GateState) (hp : (applyGateOps s ops).isPending id = true) :
    s.isPending id = true := by
  induction ops generalizing s with
  | nil => exact hp
  | cons op rest ih =>
      exact applyGateOp_isPending_mono id s op (ih (applyGateOp s op) hp)

/-- Claim C2: for every toolCallId registered in the gate, the pending entry's
awaitable is fulfilled at most once along any interleaving of `resolveApproval`
calls, per-entry timers and `cleanupExpiredApprovals` sweeps (first conjunct);
once the entry is gone it never reappears (second conjunct); and a
`resolveApproval` call for an id that is unknown or already resolved returns
`false` and performs no state change (third conjunct). -/
theorem approval_resolved_at_most_once (id : String) (ops : List GateOp)
    (s0 : GateState) (h : gateInv id s0) :
    gateInv id (applyGateOps s0 ops) ∧
    (s0.isPending id = false → (applyGateOps s0 ops).isPending id = false) ∧
    (∀ (s : GateState) (a : Bool), s.isPending id = false →
      resolveApproval s id a = (false, s)) := by
  refine ⟨gateInv_applyGateOps id ops s0 h, ?_, ?_⟩
  · intro h0
    cases hb : (applyGateOps s0 ops).isPending id with
    | false => rfl
    | true =>
        rw [applyGateOps_isPending_mono id ops s0 hb] at h0
        exact Bool.noConfusion h0
  · intro s a hnp
    have hnone : s.lookup id = none := by
      unfold GateState.isPending at hnp
      exact Option.not_isSome_iff_eq_none.mp (by simp [hnp])
    simp [resolveApproval, hnone]

/-- Witness for C2: a registered approval hit by a double resolve, a late
timer and a sweep is fulfilled exactly once. -/
theorem approval_resolved_at_most_once_witness :
    gateInv "call-1"
      (applyGateOps ⟨[("call-1", ⟨true, 0⟩)], []⟩
        [.resolve "call-1" true, .resolve "call-1" false,
         .timeoutFire "call-1", .cleanup 600000]) :=
  (approval_resolved_at_most_once "call-1"
    [.resolve "call-1" true, .resolve "call-1" false,
     .timeoutFire "call-1", .cleanup 600000]
    ⟨[("call-1", ⟨true, 0⟩)], []⟩ ⟨by decide, by decide, fun _ => rfl⟩).1

theorem decodeBlock_encodeBlock (b : ContentBlock) :
    decodeBlock (encodeBlock b) = some b := by
  cases b with
  | text t => rfl
  | tool_call c =>
      obtain ⟨tid, tname, args, pending, needsApproval, dangerous⟩ := c
      cases pending <;> cases needsApproval <;> cases dangerous <;>
        simp [encodeBlock, decodeBlock, encodeOptBoolField, decodeStringField,
          decodeOptBoolField, Json.getField]
  | tool_result r =>
      obtain ⟨tid, tname, result, isError⟩ := r
      cases isError <;>
        simp [encodeBlock, decodeBlock, encodeOptBoolField, decodeStringField,
          decodeOptBoolField, Json.getField]
  | image url mt =>
      cases mt <;>
        simp [encodeBlock, decodeBlock, decodeStringField, Json.getField]

theorem decodeContent_encodeContent (content : List ContentBlock) :
    decodeContent (encodeContent content) = some content := by
  induction content with
  | nil => rfl
  | cons b rest ih =>
      have ih' : (rest.map encodeBlock).mapM decodeBlock = some rest := ih
      show (encodeBlock b :: rest.map encodeBlock).mapM decodeBlock = some (b :: rest)
      rw [List.mapM_cons, decodeBlock_encodeBlock b, ih']
      rfl

theorem roleOfString_roleToString (r : Role) :
    roleOfString (roleToString r) = some r := by
  cases r <;> rfl

/-- Claim C9: a message persisted by `createMessage` and reloaded through
`mapRowToMessage` (the row mapping both `getMessage` and `listMessages` use)
reproduces the identical ordered content-block sequence: the JSON
serialization of the content followed by its deserialization is the
identity. -/
theorem message_content_roundtrip (msg : NewMessage) (now : String) :
    mapRowToMessage (createMessage msg now).1 = some (createMessage msg now).2 := by
  unfold createMessage mapRowToMessage
  simp [decodeContent_encodeContent, roleOfString_roleToString]

theorem collectBlocks_eq (content : List ContentBlock) :
    collectBlocks content = (textsOf content, resultPartsOf content) := by
  suffices h : ∀ (acc : List String × List AiSdkToolResultPart),
      content.foldl
        (fun acc b =>
          match b with
          | .text t => (acc.1 ++ [t], acc.2)
          | .tool_call _ => acc
          | .tool_result r => (acc.1, acc.2 ++ [wrapToolResult r])
          | .image _ _ => acc) acc =
        (acc.1 ++ textsOf content, acc.2 ++ resultPartsOf content) by
    simpa [collectBlocks] using h ([], [])
  induction content with
  | nil => intro acc; simp [textsOf, resultPartsOf]
  | cons b rest ih =>
      intro acc
      cases b <;>
        simp [List.foldl_cons, textsOf, resultPartsOf, List.filterMap_cons, ih]

theorem convertOneMessage_eq (m : Message) :
    convertOneMessage m = convertSpecMessage m := by
  unfold convertOneMessage convertSpecMessage
  rw [collectBlocks_eq]

theorem convert_foldl_go (messages : List Message) (acc : List AiSdkMessage) :
    messages.foldl (fun result m => result ++ convertOneMessage m) acc =
      acc ++ convertSpec messages := by
  induction messages generalizing acc with
  | nil => simp [convertSpec]
  | cons m rest ih =>
      rw [List.foldl_cons, ih, convertOneMessage_eq]
      simp [convertSpec, List.foldr_cons, List.append_assoc]

/-- Claim C7: the provider-format conversion maps each message exactly as the
spec describes — original role with joined texts when no tool results, one
synthetic tool message per result (in block order) when only results, the
text message followed by the tool messages when mixed, and tool-call blocks
never re-emitted. -/
theorem convert_matches_spec (messages : List Message) :
    convertToAiSdkMessages messages = convertSpec messages := by
  simpa [convertToAiSdkMessages] using convert_foldl_go messages []

theorem numProviderSteps_le (provider : Nat → ProviderStep) (fuel i : Nat)
    (h : i < 10) :
    numProviderSteps (stepCountIs 10) provider fuel i ≤ 10 - i := by
  induction fuel generalizing i with
  | zero => simp [numProviderSteps]
  | succ fuel ih =>
      simp only [numProviderSteps]
      by_cases hc : ((provider i).wantsMore && !(stepCountIs 10 (i + 1))) = true
      · rw [if_pos hc]
        have hsplit : (provider i).wantsMore = true ∧
            (!(stepCountIs 10 (i + 1))) = true := by simpa using hc
        have hstop : stepCountIs 10 (i + 1) = false := by
          cases hsv : stepCountIs 10 (i + 1) with
          | false => rfl
          | true =>
              have hns := hsplit.2
              rw [hsv] at hns
              exact Bool.noConfusion hns
        have hi1 : i + 1 < 10 := by
          have := of_decide_eq_false hstop
          omega
        have := ih (i + 1) hi1
        omega
      · rw [if_neg hc]
        omega

theorem foldl_streamStep_events (deltas : List RawDelta) (acc : StreamAcc)
    (h : acc.events.all isStreamingEvent = true) :
    (deltas.foldl streamStep acc).events.all isStreamingEvent = true := by
  induction deltas generalizing acc with
  | nil => exact h
  | cons d rest ih =>
      rw [List.foldl_cons]
      apply ih
      cases d with
      | textDelta t =>
          by_cases ht : (t == "") = true
          · simpa [streamStep, ht] using h
          · simp [streamStep, ht, List.all_append, h, isStreamingEvent]
      | toolCall tid tname input =>
          simp [streamStep, List.all_append, h, isStreamingEvent]
      | toolResult tid tname output =>
          simp [streamStep, List.all_append, h, isStreamingEvent]
      | skipped => simpa [streamStep] using h

theorem streaming_no_complete (evs : List TurnEvent)
    (h : evs.all isStreamingEvent = true) : evs.countP isCompleteEvent = 0 := by
  rw [List.countP_eq_zero]
  intro e he
  have he' := List.all_eq_true.mp h e he
  cases e <;> simp_all [isStreamingEvent, isCompleteEvent]

theorem streaming_no_usage (evs : List TurnEvent)
    (h : evs.all isStreamingEvent = true) : evs.countP isUsageEvent = 0 := by
  rw [List.countP_eq_zero]
  intro e he
  have he' := List.all_eq_true.mp h e he
  cases e <;> simp_all [isStreamingEvent, isUsageEvent]

theorem usageEvents_no_complete (tU u : Option UsageInfo) (r : Option String) :
    (usageEvents tU u r).countP isCompleteEvent = 0 := by
  cases tU <;> cases u <;> simp [usageEvents, isCompleteEvent]

/-- Claim C6: with `stopWhen: stepCountIs(10)` as the repository configures
it, the provider loop executes at most 10 steps for every provider behavior —
even one whose every step asks for another tool step — and the turn still
ends with exactly one well-formed `complete` event, at the very end, whose
message carries the accumulated content (never an empty block list). -/
theorem turn_terminates_at_step_cap (provider : Nat → ProviderStep)
    (fuel : Nat) (totalUsage usage : Option UsageInfo)
    (resolvedModelId : Option String) (messageId now : String) :
    numProviderSteps (stepCountIs 10) provider fuel 0 ≤ 10 ∧
    (streamChat provider fuel totalUsage usage resolvedModelId
      messageId now).countP isCompleteEvent = 1 ∧
    (∃ m, (streamChat provider fuel totalUsage usage resolvedModelId
        messageId now).getLast? = some (TurnEvent.complete m) ∧
      m.content ≠ []) := by
  have hstream := foldl_streamStep_events
    (runProviderSteps (stepCountIs 10) provider fuel 0)
    { contentBlocks := [], currentText := "", events := [] } rfl
  refine ⟨?_, ?_, ?_⟩
  · have := numProviderSteps_le provider fuel 0 (by omega)
    omega
  · show (_ ++ usageEvents totalUsage usage resolvedModelId ++ _).countP _ = 1
    rw [List.countP_append, List.countP_append,
      streaming_no_complete _ hstream, usageEvents_no_complete]
    rfl
  · refine
      ⟨{ id := messageId, role := .assistant,
         content :=
           if (finalizeBlocks
              ((runProviderSteps (stepCountIs 10) provider fuel 0).foldl
                streamStep
                { contentBlocks := [], currentText := "", events := [] })).isEmpty
           then [.text ""]
           else
             finalizeBlocks
              ((runProviderSteps (stepCountIs 10) provider fuel 0).foldl
                streamStep
                { contentBlocks := [], currentText := "", events := [] }),
         createdAt := now }, ?_, ?_⟩
    · show (_ ++ usageEvents totalUsage usage resolvedModelId ++
          [TurnEvent.complete _]).getLast? = _
      rw [List.append_assoc, ← List.append_assoc]
      exact List.getLast?_concat _
    · cases hb : (finalizeBlocks
          ((runProviderSteps (stepCountIs 10) provider fuel 0).foldl streamStep
            { contentBlocks := [], currentText := "", events := [] })).isEmpty with
      | true => simp [hb]
      | false =>
          simp only [hb, Bool.false_eq_true, if_false, ne_eq]
          intro hc
          rw [hc] at hb
          simp at hb

/-- Claim C8: on a successfully terminating turn for which the provider
reported token counts (`totalUsage ?? usage` present), `streamChat` yields
exactly one `usage` event, strictly before the terminal `complete`, and when
both the cumulative (`totalUsage`) and single-step (`usage`) figures are
available the reported figures are the cumulative ones. -/
theorem usage_emitted_once_before_complete (provider : Nat → ProviderStep)
    (fuel : Nat) (totalUsage usage : Option UsageInfo)
    (resolvedModelId : Option String) (messageId now : String)
    (hreported :
      (match totalUsage with
       | some x => some x
       | none => usage).isSome = true) :
    ∃ pre p c t mdl m,
      streamChat provider fuel totalUsage usage resolvedModelId messageId now =
        pre ++ [TurnEvent.usage p c t mdl, TurnEvent.complete m] ∧
      pre.countP isUsageEvent = 0 ∧
      (∀ uT, totalUsage = some uT →
        p = uT.inputTokens.getD 0 ∧ c = uT.outputTokens.getD 0 ∧
        t = uT.totalTokens.getD 0) := by
  have hstream := foldl_streamStep_events
    (runProviderSteps (stepCountIs 10) provider fuel 0)
    { contentBlocks := [], currentText := "", events := [] } rfl
  have hshape : streamChat provider fuel totalUsage usage resolvedModelId
      messageId now =
      (turnAcc provider fuel).events ++
        usageEvents totalUsage usage resolvedModelId ++
        [.complete (turnFinalMessage provider fuel messageId now)] := rfl
  cases totalUsage with
  | some uT =>
      refine ⟨(turnAcc provider fuel).events,
        uT.inputTokens.getD 0, uT.outputTokens.getD 0, uT.totalTokens.getD 0,
        resolvedModelId.getD "gpt-4o",
        turnFinalMessage provider fuel messageId now, ?_, ?_, ?_⟩
      · rw [hshape]
        simp [usageEvents]
      · exact streaming_no_usage _ hstream
      · intro uT' h'
        cases h'
        exact ⟨rfl, rfl, rfl⟩
  | none =>
      cases usage with
      | none => exact Bool.noConfusion hreported
      | some u0 =>
          refine ⟨(turnAcc provider fuel).events,
            u0.inputTokens.getD 0, u0.outputTokens.getD 0, u0.totalTokens.getD 0,
            resolvedModelId.getD "gpt-4o",
            turnFinalMessage provider fuel messageId now, ?_, ?_, ?_⟩
          · rw [hshape]
            simp [usageEvents]
          · exact streaming_no_usage _ hstream
          · intro uT' h'
            exact Option.noConfusion h'

/-- Witness for C8 at a provider reporting a cumulative figure. -/
theorem usage_emitted_once_before_complete_witness :
    ∃ pre p c t mdl m,
      streamChat (fun _ => ⟨[], false⟩) 1 (some ⟨some 3, some 4, some 7⟩)
          none none "m1" "t0" =
        pre ++ [TurnEvent.usage p c t mdl, TurnEvent.complete m] ∧
      pre.countP isUsageEvent = 0 ∧
      (∀ uT, (some (⟨some 3, some 4, some 7⟩ : UsageInfo)) = some uT →
        p = uT.inputTokens.getD 0 ∧ c = uT.outputTokens.getD 0 ∧
        t = uT.totalTokens.getD 0) :=
  usage_emitted_once_before_complete (fun _ => ⟨[], false⟩) 1
    (some ⟨some 3, some 4, some 7⟩) none none "m1" "t0" rfl

theorem find?_eq_some_split {α : Type} (p : α → Bool) (l : List α) (x : α)
    (h : l.find? p = some x) :
    ∃ pre post, l = pre ++ x :: post ∧ p x = true ∧ ∀ y ∈ pre, p y = false := by
  induction l with
  | nil => exact absurd h (by simp)
  | cons a rest ih =>
      by_cases hp : p a = true
      · rw [List.find?_cons_of_pos _ hp] at h
        cases h
        exact ⟨[], rest, rfl, hp, by simp⟩
      · rw [List.find?_cons_of_neg _ (by simpa using hp)] at h
        obtain ⟨pre, post, heq, hx, hpre⟩ := ih h
        refine ⟨a :: pre, post, by rw [heq]; rfl, hx, ?_⟩
        intro y hy
        rcases List.mem_cons.mp hy with hya | hyp
        · rw [hya]
          simpa using hp
        · exact hpre y hyp

/-- Claim C10: the `tool.approval_required` notification goes to at most one
connection — the first one of the registry bound to the session — and when no
connection is bound, nothing is sent but the pending approval is still
registered (awaiting `resolveApproval` or the 5-minute timer of the gate). -/
theorem approval_notifies_first_bound_connection (clients : List Conn)
    (sessionId : String) (tc : ToolCallBlock) (dangerous : Bool)
    (gate : GateState) (now : Nat) :
    (onToolApprovalRequired clients sessionId tc dangerous gate now).1.length ≤ 1 ∧
    (∀ w msg,
      (w, msg) ∈ (onToolApprovalRequired clients sessionId tc dangerous gate now).1 →
      msg = ⟨tc.toolCallId, tc.toolName, tc.args, dangerous⟩ ∧
      ∃ pre c post, clients = pre ++ c :: post ∧ c.connId = w ∧
        c.sessionId = some sessionId ∧
        ∀ c' ∈ pre, c'.sessionId ≠ some sessionId) ∧
    ((∀ c ∈ clients, c.sessionId ≠ some sessionId) →
      (onToolApprovalRequired clients sessionId tc dangerous gate now).1 = []) ∧
    (onToolApprovalRequired clients sessionId tc dangerous gate now).2.isPending
      tc.toolCallId = true := by
  have hpend : (createPendingApproval gate tc.toolCallId dangerous now).isPending
      tc.toolCallId = true := by
    simp [createPendingApproval, GateState.isPending, GateState.lookup,
      List.find?_cons_of_pos]
  cases hfind : clients.find? (fun c => c.sessionId == some sessionId) with
  | none =>
      have hget : getWsForSession clients sessionId = none := by
        simp [getWsForSession, hfind]
      refine ⟨?_, ?_, ?_, ?_⟩ <;>
        simp [onToolApprovalRequired, hget, hpend]
  | some c0 =>
      have hget : getWsForSession clients sessionId = some c0.connId := by
        simp [getWsForSession, hfind]
      obtain ⟨pre, post, heq, hx, hpre⟩ := find?_eq_some_split _ clients c0 hfind
      refine ⟨?_, ?_, ?_, ?_⟩
      · simp [onToolApprovalRequired, hget]
      · intro w msg hm
        simp only [onToolApprovalRequired, hget, List.mem_singleton] at hm
        cases hm
        refine ⟨rfl, pre, c0, post, heq, rfl, by simpa using hx, ?_⟩
        intro c' hc'
        have := hpre c' hc'
        simpa using this
      · intro hall
        exfalso
        have hc0mem : c0 ∈ clients := List.mem_of_find?_eq_some hfind
        exact (hall c0 hc0mem) (by simpa using hx)
      · simpa [onToolApprovalRequired, hget] using hpend

/-- Claim C3, counterexample: `broadcast` does not consult the subscribed
session. With one connection bound to session S and another bound to T, a
turn event of session S is delivered to the connection bound to T as well. -/
theorem session_filtering_missing_counterexample :
    deliveredTo
      (broadcastTurnEvents
        [{ connId := 1, sessionId := some "S", isOpen := true },
         { connId := 2, sessionId := some "T", isOpen := true }]
        "S" "m1" [TurnEvent.delta "hi"]) 2 ≠ [] ∧
    ({ connId := 2, sessionId := some "T", isOpen := true } : Conn).sessionId ≠
      some "S" := by
  constructor
  · simp [broadcastTurnEvents, broadcast, deliveredTo, wireOfTurnEvent,
      List.filter_cons]
  · simp

theorem deliveredTo_append (a b : List (Nat × String)) (cid : Nat) :
    deliveredTo (a ++ b) cid = deliveredTo a cid ++ deliveredTo b cid := by
  simp [deliveredTo, List.filter_append]

theorem deliveredTo_broadcast_notin (ds : List Conn) (s : String) (cid : Nat)
    (hni : cid ∉ ds.map Conn.connId) :
    deliveredTo (broadcast ds s none) cid = [] := by
  induction ds with
  | nil => rfl
  | cons d ds ih =>
      have hne : d.connId ≠ cid := fun hc => hni (by rw [← hc]; exact .head _)
      have hni' : cid ∉ ds.map Conn.connId := fun hc => hni (.tail _ hc)
      by_cases ho : d.isOpen = true <;>
        simp [broadcast, List.filter_cons, deliveredTo, ho, hne, ih hni'] at * <;>
        simpa [deliveredTo, broadcast] using ih hni'

theorem deliveredTo_broadcast (clients : List Conn) (s : String) (c : Conn)
    (hnd : (clients.map Conn.connId).Nodup) (hmem : c ∈ clients) :
    deliveredTo (broadcast clients s none) c.connId =
      if c.isOpen then [s] else [] := by
  induction clients with
  | nil => cases hmem
  | cons d ds ih =>
      rw [List.map_cons] at hnd
      rcases List.nodup_cons.mp hnd with ⟨hni, hnd'⟩
      have hsplit : broadcast (d :: ds) s none =
          (if d.isOpen then [(d.connId, s)] else []) ++ broadcast ds s none := by
        by_cases ho : d.isOpen = true <;> simp [broadcast, List.filter_cons, ho]
      rcases List.mem_cons.mp hmem with hcd | hcds
      · subst hcd
        rw [hsplit, deliveredTo_append, deliveredTo_broadcast_notin ds s c.connId hni]
        by_cases ho : c.isOpen = true <;> simp [deliveredTo, ho]
      · have hne : d.connId ≠ c.connId := by
          intro hc
          exact hni (hc ▸ List.mem_map_of_mem Conn.connId hcds)
        rw [hsplit, deliveredTo_append]
        have hd0 : deliveredTo (if d.isOpen then [(d.connId, s)] else [])
            c.connId = [] := by
          by_cases ho : d.isOpen = true <;> simp [deliveredTo, ho, hne]
        rw [hd0, ih hnd' hcds]
        rfl

/-- Claim C3, amended: each turn event's serialized wire message is delivered,
in production order, to every open connection of the registry — including
connections subscribed to other sessions or to none (the code broadcasts to
all clients); a closed connection receives nothing. -/
theorem turn_events_fan_out_to_all_open_connections (clients : List Conn)
    (sessionId messageId : String) (events : List TurnEvent) (c : Conn)
    (hnd : (clients.map Conn.connId).Nodup) (hmem : c ∈ clients) :
    deliveredTo (broadcastTurnEvents clients sessionId messageId events)
        c.connId =
      if c.isOpen then serializedTurn sessionId messageId events else [] := by
  induction events with
  | nil =>
      by_cases ho : c.isOpen = true <;>
        simp [broadcastTurnEvents, serializedTurn, deliveredTo, ho]
  | cons e es ih =>
      have hstep : broadcastTurnEvents clients sessionId messageId (e :: es) =
          (match wireOfTurnEvent sessionId messageId e with
           | some w => broadcast clients (jsonStringify w) none
           | none => []) ++ broadcastTurnEvents clients sessionId messageId es := rfl
      have hser : serializedTurn sessionId messageId (e :: es) =
          (match wireOfTurnEvent sessionId messageId e with
           | some w => [jsonStringify w]
           | none => []) ++ serializedTurn sessionId messageId es := rfl
      rw [hstep, hser, deliveredTo_append, ih]
      cases hw : wireOfTurnEvent sessionId messageId e with
      | none => by_cases ho : c.isOpen = true <;> simp [deliveredTo, ho]
      | some w =>
          rw [deliveredTo_broadcast clients (jsonStringify w) c hnd hmem]
          by_cases ho : c.isOpen = true <;> simp [ho]

/-- Witness for the amended C3 at a concrete registry. -/
theorem turn_events_fan_out_witness :
    deliveredTo
      (broadcastTurnEvents
        [{ connId := 1, sessionId := some "S", isOpen := true },
         { connId := 2, sessionId := some "T", isOpen := true }]
        "S" "m1" [TurnEvent.delta "hi"]) 1 =
      if true then serializedTurn "S" "m1" [TurnEvent.delta "hi"] else [] :=
  turn_events_fan_out_to_all_open_connections
    [{ connId := 1, sessionId := some "S", isOpen := true },
     { connId := 2, sessionId := some "T", isOpen := true }]
    "S" "m1" [TurnEvent.delta "hi"]
    { connId := 1, sessionId := some "S", isOpen := true }
    (by decide) (by decide)

theorem list_map_self {α : Type} (l : List α) (f : α → α)
    (h : ∀ x ∈ l, f x = x) : l.map f = l := by
  induction l with
  | nil => rfl
  | cons a rest ih =>
      rw [List.map_cons, h a (.head _), ih (fun x hx => h x (.tail _ hx))]

theorem all_fresh_no_approval (name : String) (content : List ContentBlock)
    (h : content.all
      (fun b =>
        match b with
        | .tool_call c => !(c.toolName == name)
        | _ => true) = true) :
    hasApprovalBlockFor name content = false := by
  unfold hasApprovalBlockFor
  rw [List.any_eq_false]
  intro b hb
  have hball := List.all_eq_true.mp h b hb
  cases b <;> simp_all

theorem approvalUpdateBlocks_of_fresh (apId name : String) (d : Bool)
    (content : List ContentBlock)
    (h : content.all
      (fun b =>
        match b with
        | .tool_call c => !(c.toolName == name)
        | _ => true) = true) :
    approvalUpdateBlocks apId name d content = none := by
  induction content with
  | nil => rfl
  | cons b rest ih =>
      rw [List.all_cons] at h
      rcases Bool.and_eq_true_iff.mp h with ⟨hb, hrest⟩
      cases b with
      | tool_call c =>
          have hname : (c.toolName == name) = false := by simpa using hb
          simp [approvalUpdateBlocks, hname, ih hrest]
      | text t => simp [approvalUpdateBlocks, ih hrest]
      | tool_result r => simp [approvalUpdateBlocks, ih hrest]
      | image u mt => simp [approvalUpdateBlocks, ih hrest]

theorem approvalUpdateBlocks_append_match (apId name : String) (d : Bool)
    (content : List ContentBlock) (c0 : ToolCallBlock)
    (h : content.all
      (fun b =>
        match b with
        | .tool_call c => !(c.toolName == name)
        | _ => true) = true)
    (hname : (c0.toolName == name) = true)
    (hna : isTruthy c0.needsApproval = false) :
    approvalUpdateBlocks apId name d (content ++ [.tool_call c0]) =
      some (content ++
        [.tool_call
          { c0 with
            toolCallId := apId, needsApproval := some true,
            dangerous := some d, pending := some false }]) := by
  induction content with
  | nil => simp [approvalUpdateBlocks, hname, hna]
  | cons b rest ih =>
      rw [List.all_cons] at h
      rcases Bool.and_eq_true_iff.mp h with ⟨hb, hrest⟩
      cases b with
      | tool_call c =>
          have hcname : (c.toolName == name) = false := by simpa using hb
          simp [approvalUpdateBlocks, hcname, ih hrest]
      | text t => simp [approvalUpdateBlocks, ih hrest]
      | tool_result r => simp [approvalUpdateBlocks, ih hrest]
      | image u mt => simp [approvalUpdateBlocks, ih hrest]

theorem applyChatToolCall_split (mid : String) (tc : ToolCallBlock)
    (init : List Message) (m : Message)
    (hinit : init.all (fun m' => !(m'.id == mid)) = true)
    (hid : m.id = mid)
    (hno : hasApprovalBlockFor tc.toolName m.content = false) :
    applyChatToolCall mid tc (init ++ [m]) =
      init ++
        [{ m with
           content :=
             m.content ++
               [.tool_call
                 { toolCallId := tc.toolCallId, toolName := tc.toolName,
                   args := tc.args, pending := some true }] }] := by
  unfold applyChatToolCall
  rw [List.map_append]
  have hinit' : init.map (fun m' =>
      if m'.id == mid then
        if hasApprovalBlockFor tc.toolName m'.content then m'
        else
          { m' with
            content :=
              m'.content ++
                [.tool_call
                  { toolCallId := tc.toolCallId, toolName := tc.toolName,
                    args := tc.args, pending := some true }] }
      else m') = init := by
    apply list_map_self
    intro m' hm'
    have := List.all_eq_true.mp hinit m' hm'
    simp only [Bool.not_eq_true'] at this
    simp [this]
  rw [hinit']
  simp [hid, hno]

theorem applyApprovalRequired_last_assistant (apId name : String) (args : Json)
    (d : Bool) (init : List Message) (m : Message)
    (hrole : m.role = .assistant) :
    applyApprovalRequired apId name args d (init ++ [m]) =
      init ++
        [match approvalUpdateBlocks apId name d m.content with
         | some content' => { m with content := content' }
         | none =>
             { m with content := m.content ++ [approvalNewBlock apId name args d] }] := by
  unfold applyApprovalRequired
  rw [List.reverse_append]
  simp only [List.reverse_cons, List.reverse_nil, List.nil_append,
    List.singleton_append]
  unfold applyApprovalRev
  rw [show (m.role == Role.assistant) = true by simp [hrole]]
  simp only [if_true]
  cases hupd : approvalUpdateBlocks apId name d m.content <;>
    simp [List.reverse_cons, List.reverse_reverse]

/-- Claim C5: for a fresh tool call of one in-flight assistant message (the
last message of the transcript), feeding `tool.approval_required` and
`chat.tool_call` to the accumulator in either order yields the same final
state: exactly one appended `ToolCallBlock` with `needsApproval = true` and
the approval notification's toolCallId as canonical id. -/
theorem approval_toolcall_race_commutes (init : List Message) (m : Message)
    (mid apId tcId name : String) (args : Json) (d : Bool)
    (hrole : m.role = .assistant) (hid : m.id = mid)
    (hfresh : m.content.all
      (fun b =>
        match b with
        | .tool_call c => !(c.toolName == name)
        | _ => true) = true)
    (hinit : init.all (fun m' => !(m'.id == mid)) = true) :
    applyApprovalRequired apId name args d
        (applyChatToolCall mid ⟨tcId, name, args, none, none, none⟩
          (init ++ [m])) =
      applyChatToolCall mid ⟨tcId, name, args, none, none, none⟩
        (applyApprovalRequired apId name args d (init ++ [m])) ∧
    applyApprovalRequired apId name args d
        (applyChatToolCall mid ⟨tcId, name, args, none, none, none⟩
          (init ++ [m])) =
      init ++
        [{ m with content := m.content ++ [approvalNewBlock apId name args d] }] := by
  have hno : hasApprovalBlockFor name m.content = false :=
    all_fresh_no_approval name m.content hfresh
  -- the tool_call-first side
  have hA1 := applyChatToolCall_split mid ⟨tcId, name, args, none, none, none⟩
    init m hinit hid hno
  have hA2 := applyApprovalRequired_last_assistant apId name args d init
    { m with
      content :=
        m.content ++
          [.tool_call
            { toolCallId := tcId, toolName := name, args := args,
              pending := some true }] }
    hrole
  have hupdA := approvalUpdateBlocks_append_match apId name d m.content
    { toolCallId := tcId, toolName := name, args := args, pending := some true }
    hfresh (by simp) (by simp [isTruthy])
  have hsideA : applyApprovalRequired apId name args d
      (applyChatToolCall mid ⟨tcId, name, args, none, none, none⟩
        (init ++ [m])) =
      init ++
        [{ m with content := m.content ++ [approvalNewBlock apId name args d] }] := by
    rw [hA1, hA2, hupdA]
    simp [approvalNewBlock]
  -- the approval-first side
  have hB1 := applyApprovalRequired_last_assistant apId name args d init m hrole
  have hupdB := approvalUpdateBlocks_of_fresh apId name d m.content hfresh
  have hB1' : applyApprovalRequired apId name args d (init ++ [m]) =
      init ++
        [{ m with content := m.content ++ [approvalNewBlock apId name args d] }] := by
    rw [hB1, hupdB]
  have hB2 : applyChatToolCall mid ⟨tcId, name, args, none, none, none⟩
      (init ++
        [{ m with content := m.content ++ [approvalNewBlock apId name args d] }]) =
      init ++
        [{ m with content := m.content ++ [approvalNewBlock apId name args d] }] := by
    unfold applyChatToolCall
    rw [List.map_append]
    have hinit' : ∀ x ∈ init, (fun m' =>
        if m'.id == mid then
          if hasApprovalBlockFor name m'.content then m'
          else
            { m' with
              content :=
                m'.content ++
                  [.tool_call
                    { toolCallId := tcId, toolName := name, args := args,
                      pending := some true }] }
        else m') x = x := by
      intro m' hm'
      have := List.all_eq_true.mp hinit m' hm'
      simp only [Bool.not_eq_true'] at this
      simp [this]
    rw [list_map_self init _ hinit']
    have hhas : hasApprovalBlockFor name
        (m.content ++ [approvalNewBlock apId name args d]) = true := by
      unfold hasApprovalBlockFor approvalNewBlock
      rw [List.any_append]
      simp [isTruthy]
    simp [hid, hhas]
  exact ⟨by rw [hsideA, hB1', hB2], hsideA⟩

/-- Witness for C5 at a concrete in-flight assistant message. -/
theorem approval_toolcall_race_commutes_witness :
    applyApprovalRequired "ap1" "shell" (Json.obj []) true
        (applyChatToolCall "m1" ⟨"tc1", "shell", Json.obj [], none, none, none⟩
          ([] ++ [⟨"m1", Role.assistant, [ContentBlock.text ""], "t0"⟩])) =
      [] ++
        [{ (⟨"m1", Role.assistant, [ContentBlock.text ""], "t0"⟩ : Message) with
           content :=
             [ContentBlock.text ""] ++
               [approvalNewBlock "ap1" "shell" (Json.obj []) true] }] :=
  (approval_toolcall_race_commutes []
    ⟨"m1", Role.assistant, [ContentBlock.text ""], "t0"⟩
    "m1" "ap1" "tc1" "shell" (Json.obj []) true rfl rfl rfl rfl).2

theorem assoc_find_filterKey_self {β : Type} (l : List (String × β)) (k : String) :
    (l.filter (fun kv => !(kv.1 == k))).find? (fun kv => kv.1 == k) = none := by
  rw [List.find?_eq_none]
  intro x hx
  have hmem := List.mem_filter.mp hx
  simpa using hmem.2

theorem assoc_find_filterKey_ne {β : Type} (l : List (String × β)) (k k' : String)
    (h : k ≠ k') :
    (l.filter (fun kv => !(kv.1 == k'))).find? (fun kv => kv.1 == k) =
      l.find? (fun kv => kv.1 == k) := by
  induction l with
  | nil => rfl
  | cons kv rest ih =>
      by_cases h1 : kv.1 = k'
      · have h2 : (kv.1 == k) = false := by
          simp only [beq_eq_false_iff_ne, ne_eq, h1]
          exact fun hc => h hc.symm
        have h3 : (k' == k) = false := by
          simp only [beq_eq_false_iff_ne, ne_eq]
          exact fun hc => h hc.symm
        simp [List.filter_cons, h1, List.find?, h2, h3] at ih ⊢
        exact ih
      · simp only [List.filter_cons, show (!(kv.1 == k')) = true by simp [h1],
          if_true]
        by_cases h2 : kv.1 = k
        · simp [List.find?, h2]
        · simp only [List.find?, show (kv.1 == k) = false by simp [h2]]
          exact ih

theorem mapFind_set_self (m : List (String × ToolResultBlock))
    (r : ToolResultBlock) :
    mapFind (toolResultMapSet m r) r.toolCallId = some r := by
  simp [mapFind, toolResultMapSet, List.find?_cons_of_pos]

theorem mapFind_set_ne (m : List (String × ToolResultBlock))
    (r : ToolResultBlock) (k : String) (h : k ≠ r.toolCallId) :
    mapFind (toolResultMapSet m r) k = mapFind m k := by
  unfold mapFind toolResultMapSet
  rw [List.find?_cons_of_neg _
      (by simp only [beq_iff_eq]; exact fun hc => h hc.symm),
    assoc_find_filterKey_ne m k r.toolCallId h]

theorem buildMap_entriesOk (content : List ContentBlock)
    (acc : List (String × ToolResultBlock))
    (hacc : ∀ kv ∈ acc, kv.2.toolCallId = kv.1) :
    ∀ kv ∈ content.foldl
      (fun m b =>
        match b with
        | .tool_result r => toolResultMapSet m r
        | _ => m) acc, kv.2.toolCallId = kv.1 := by
  induction content generalizing acc with
  | nil => exact hacc
  | cons b rest ih =>
      rw [List.foldl_cons]
      cases b with
      | tool_result r =>
          apply ih
          intro kv hkv
          rcases List.mem_cons.mp hkv with hh | ht
          · rw [hh]
          · exact hacc kv (List.mem_filter.mp ht).1
      | text t => exact ih acc hacc
      | tool_call c => exact ih acc hacc
      | image u mt => exact ih acc hacc

theorem buildMap_ok (content : List ContentBlock) (k : String)
    (r : ToolResultBlock) (h : mapFind (buildToolResultMap content) k = some r) :
    r.toolCallId = k := by
  unfold mapFind at h
  obtain ⟨kv, hfind, hsnd⟩ := Option.map_eq_some'.mp h
  have hpred := List.find?_some hfind
  simp only [beq_iff_eq] at hpred
  have hmem := List.mem_of_find?_eq_some hfind
  have hok := buildMap_entriesOk content [] (by intro kv h'; cases h') kv hmem
  rw [hsnd] at hok
  rw [hok, hpred]

theorem mapFind_build_isSome (content : List ContentBlock) (id : String) :
    ∀ acc : List (String × ToolResultBlock),
      (id ∈ resultIds content ∨ (mapFind acc id).isSome = true) →
      (mapFind
        (content.foldl
          (fun m b =>
            match b with
            | .tool_result r => toolResultMapSet m r
            | _ => m) acc) id).isSome = true := by
  induction content with
  | nil =>
      intro acc h
      rcases h with hmem | hsome
      · cases hmem
      · exact hsome
  | cons b rest ih =>
      intro acc h
      rw [List.foldl_cons]
      cases b with
      | tool_result r =>
          apply ih
          by_cases hid : id = r.toolCallId
          · right
            rw [hid, mapFind_set_self]
            rfl
          · rcases h with hmem | hsome
            · have : resultIds (ContentBlock.tool_result r :: rest) =
                  r.toolCallId :: resultIds rest := by
                simp [resultIds, List.filterMap_cons]
              rw [this] at hmem
              rcases List.mem_cons.mp hmem with hh | ht
              · exact absurd hh hid
              · exact Or.inl ht
            · right
              rw [mapFind_set_ne acc r id hid]
              exact hsome
      | text t =>
          apply ih
          rcases h with hmem | hsome
          · exact Or.inl (by simpa [resultIds, List.filterMap_cons] using hmem)
          · exact Or.inr hsome
      | tool_call c =>
          apply ih
          rcases h with hmem | hsome
          · exact Or.inl (by simpa [resultIds, List.filterMap_cons] using hmem)
          · exact Or.inr hsome
      | image u mt =>
          apply ih
          rcases h with hmem | hsome
          · exact Or.inl (by simpa [resultIds, List.filterMap_cons] using hmem)
          · exact Or.inr hsome

theorem mapFind_build_of_mem (content : List ContentBlock) (id : String)
    (h : id ∈ resultIds content) :
    (mapFind (buildToolResultMap content) id).isSome = true :=
  mapFind_build_isSome content id [] (Or.inl h)

theorem callCount_eq_count (id : String) (l : List ContentBlock) :
    callCount id l = (callIds l).count id := by
  induction l with
  | nil => rfl
  | cons b rest ih =>
      cases b <;>
        simp [callCount, callIds, List.countP_cons, List.filterMap_cons,
          List.count_cons, isCallWithId, ih] <;>
        simp [callCount, callIds] at ih <;> omega

theorem resultCount_eq_count (id : String) (l : List ContentBlock) :
    resultCount id l = (resultIds l).count id := by
  induction l with
  | nil => rfl
  | cons b rest ih =>
      cases b <;>
        simp [resultCount, resultIds, List.countP_cons, List.filterMap_cons,
          List.count_cons, isResultWithId, ih] <;>
        simp [resultCount, resultIds] at ih <;> omega

theorem groupedCount_groupGo (m : List (String × ToolResultBlock))
    (hok : ∀ k r, mapFind m k = some r → r.toolCallId = k) (id : String) :
    ∀ (rest : List ContentBlock) (used : List String),
      groupedResultCount id (groupGo m rest used) =
        if (mapFind m id).isSome then callCount id rest else 0 := by
  intro rest
  induction rest with
  | nil =>
      intro used
      simp [groupGo, groupedResultCount, callCount]
  | cons b rest ih =>
      intro used
      cases b with
      | tool_call c =>
          cases hf : mapFind m c.toolCallId with
          | some r =>
              have hrid := hok _ _ hf
              have hgo : groupGo m (ContentBlock.tool_call c :: rest) used =
                  .grouped c (some r) :: groupGo m rest (c.toolCallId :: used) := by
                simp [groupGo, hf]
              rw [hgo]
              unfold groupedResultCount callCount at ih ⊢
              rw [List.countP_cons, List.countP_cons, ih]
              by_cases hc : c.toolCallId = id
              · have hfid : mapFind m id = some r := hc ▸ hf
                simp [hfid, hrid, hc, isCallWithId]
              · have h1 : (r.toolCallId == id) = false := by
                  simp [hrid, hc]
                have h2 : isCallWithId id (ContentBlock.tool_call c) = false := by
                  simp [isCallWithId, hc]
                simp only [h1, h2, if_false]
                cases (mapFind m id).isSome <;> simp
          | none =>
              have hgo : groupGo m (ContentBlock.tool_call c :: rest) used =
                  .grouped c none :: groupGo m rest used := by
                simp [groupGo, hf]
              rw [hgo]
              unfold groupedResultCount callCount at ih ⊢
              rw [List.countP_cons, List.countP_cons, ih]
              by_cases hc : c.toolCallId = id
              · have hfid : mapFind m id = none := hc ▸ hf
                simp [hfid]
              · have h2 : isCallWithId id (ContentBlock.tool_call c) = false := by
                  simp [isCallWithId, hc]
                simp only [h2, if_false]
                cases (mapFind m id).isSome <;> simp
      | tool_result r =>
          cases hcont : used.contains r.toolCallId with
          | true =>
              have hmu : r.toolCallId ∈ used := by simpa using hcont
              have hgo : groupGo m (ContentBlock.tool_result r :: rest) used =
                  groupGo m rest used := by
                simp [groupGo, hcont, hmu]
              rw [hgo, ih]
              unfold callCount
              rw [List.countP_cons]
              simp [isCallWithId]
          | false =>
              have hmu : r.toolCallId ∉ used := by simpa using hcont
              have hgo : groupGo m (ContentBlock.tool_result r :: rest) used =
                  .block (.tool_result r) :: groupGo m rest used := by
                simp [groupGo, hcont, hmu]
              rw [hgo]
              unfold groupedResultCount callCount at ih ⊢
              rw [List.countP_cons, List.countP_cons, ih]
              simp [isCallWithId]
      | text t =>
          have hgo : groupGo m (ContentBlock.text t :: rest) used =
              .block (.text t) :: groupGo m rest used := by
            simp [groupGo]
          rw [hgo]
          unfold groupedResultCount callCount at ih ⊢
          rw [List.countP_cons, List.countP_cons, ih]
          simp [isCallWithId]
      | image u mt =>
          have hgo : groupGo m (ContentBlock.image u mt :: rest) used =
              .block (.image u mt) :: groupGo m rest used := by
            simp [groupGo]
          rw [hgo]
          unfold groupedResultCount callCount at ih ⊢
          rw [List.countP_cons, List.countP_cons, ih]
          simp [isCallWithId]

theorem standalone_zero_of_used (m : List (String × ToolResultBlock))
    (id : String) :
    ∀ (rest : List ContentBlock) (used : List String), id ∈ used →
      standaloneResultCount id (groupGo m rest used) = 0 := by
  intro rest
  induction rest with
  | nil => intro used _; rfl
  | cons b rest ih =>
      intro used hu
      cases b with
      | tool_call c =>
          cases hf : mapFind m c.toolCallId with
          | some r =>
              have hgo : groupGo m (ContentBlock.tool_call c :: rest) used =
                  .grouped c (some r) :: groupGo m rest (c.toolCallId :: used) := by
                simp [groupGo, hf]
              rw [hgo]
              unfold standaloneResultCount
              rw [List.countP_cons]
              have := ih (c.toolCallId :: used) (List.mem_cons_of_mem _ hu)
              unfold standaloneResultCount at this
              simp [this]
          | none =>
              have hgo : groupGo m (ContentBlock.tool_call c :: rest) used =
                  .grouped c none :: groupGo m rest used := by
                simp [groupGo, hf]
              rw [hgo]
              unfold standaloneResultCount
              rw [List.countP_cons]
              have := ih used hu
              unfold standaloneResultCount at this
              simp [this]
      | tool_result r =>
          cases hcont : used.contains r.toolCallId with
          | true =>
              have hmu : r.toolCallId ∈ used := by simpa using hcont
              have hgo : groupGo m (ContentBlock.tool_result r :: rest) used =
                  groupGo m rest used := by
                simp [groupGo, hcont, hmu]
              rw [hgo]
              exact ih used hu
          | false =>
              have hmu : r.toolCallId ∉ used := by simpa using hcont
              have hgo : groupGo m (ContentBlock.tool_result r :: rest) used =
                  .block (.tool_result r) :: groupGo m rest used := by
                simp [groupGo, hcont, hmu]
              rw [hgo]
              unfold standaloneResultCount
              rw [List.countP_cons]
              have hne : (r.toolCallId == id) = false := by
                simp only [beq_eq_false_iff_ne, ne_eq]
                intro hc
                exact hmu (hc ▸ hu)
              have := ih used hu
              unfold standaloneResultCount at this
              simp [this, hne]
      | text t =>
          have hgo : groupGo m (ContentBlock.text t :: rest) used =
              .block (.text t) :: groupGo m rest used := by
            simp [groupGo]
          rw [hgo]
          unfold standaloneResultCount
          rw [List.countP_cons]
          have := ih used hu
          unfold standaloneResultCount at this
          simp [this]
      | image u mt =>
          have hgo : groupGo m (ContentBlock.image u mt :: rest) used =
              .block (.image u mt) :: groupGo m rest used := by
            simp [groupGo]
          rw [hgo]
          unfold standaloneResultCount
          rw [List.countP_cons]
          have := ih used hu
          unfold standaloneResultCount at this
          simp [this]

theorem standalone_count_no_call (m : List (String × ToolResultBlock))
    (id : String) :
    ∀ (rest : List ContentBlock) (used : List String),
      callCount id rest = 0 → id ∉ used →
      standaloneResultCount id (groupGo m rest used) = resultCount id rest := by
  intro rest
  induction rest with
  | nil => intro used _ _; rfl
  | cons b rest ih =>
      intro used hcc hnu
      cases b with
      | tool_call c =>
          have hcc' : callCount id rest = 0 ∧
              isCallWithId id (ContentBlock.tool_call c) = false := by
            unfold callCount at hcc ⊢
            rw [List.countP_cons] at hcc
            constructor
            · omega
            · by_cases hp : isCallWithId id (ContentBlock.tool_call c) = true
              · simp [hp] at hcc
              · simpa using hp
          have hne : c.toolCallId ≠ id := by
            have := hcc'.2
            simpa [isCallWithId] using this
          have hres : resultCount id (ContentBlock.tool_call c :: rest) =
              resultCount id rest := by
            unfold resultCount
            rw [List.countP_cons]
            simp [isResultWithId]
          rw [hres]
          cases hf : mapFind m c.toolCallId with
          | some r =>
              have hgo : groupGo m (ContentBlock.tool_call c :: rest) used =
                  .grouped c (some r) :: groupGo m rest (c.toolCallId :: used) := by
                simp [groupGo, hf]
              rw [hgo]
              unfold standaloneResultCount
              rw [List.countP_cons]
              have hnu' : id ∉ c.toolCallId :: used := by
                intro hmem
                rcases List.mem_cons.mp hmem with hh | ht
                · exact hne hh.symm
                · exact hnu ht
              have := ih (c.toolCallId :: used) hcc'.1 hnu'
              unfold standaloneResultCount at this
              simp [this]
          | none =>
              have hgo : groupGo m (ContentBlock.tool_call c :: rest) used =
                  .grouped c none :: groupGo m rest used := by
                simp [groupGo, hf]
              rw [hgo]
              unfold standaloneResultCount
              rw [List.countP_cons]
              have := ih used hcc'.1 hnu
              unfold standaloneResultCount at this
              simp [this]
      | tool_result r =>
          have hcc' : callCount id rest = 0 := by
            unfold callCount at hcc ⊢
            rw [List.countP_cons] at hcc
            omega
          cases hcont : used.contains r.toolCallId with
          | true =>
              have hmu : r.toolCallId ∈ used := by simpa using hcont
              have hne : (r.toolCallId == id) = false := by
                simp only [beq_eq_false_iff_ne, ne_eq]
                intro hc
                exact hnu (hc ▸ hmu)
              have hgo : groupGo m (ContentBlock.tool_result r :: rest) used =
                  groupGo m rest used := by
                simp [groupGo, hcont, hmu]
              rw [hgo]
              have hres : resultCount id (ContentBlock.tool_result r :: rest) =
                  resultCount id rest := by
                unfold resultCount
                rw [List.countP_cons]
                simp [isResultWithId, hne]
              rw [hres]
              exact ih used hcc' hnu
          | false =>
              have hmu : r.toolCallId ∉ used := by simpa using hcont
              have hgo : groupGo m (ContentBlock.tool_result r :: rest) used =
                  .block (.tool_result r) :: groupGo m rest used := by
                simp [groupGo, hcont, hmu]
              rw [hgo]
              unfold standaloneResultCount resultCount
              rw [List.countP_cons, List.countP_cons]
              have := ih used hcc' hnu
              unfold standaloneResultCount resultCount at this
              simp only [isResultWithId, this]
      | text t =>
          have hcc' : callCount id rest = 0 := by
            unfold callCount at hcc ⊢
            rw [List.countP_cons] at hcc
            omega
          have hgo : groupGo m (ContentBlock.text t :: rest) used =
              .block (.text t) :: groupGo m rest used := by
            simp [groupGo]
          rw [hgo]
          unfold standaloneResultCount resultCount
          rw [List.countP_cons, List.countP_cons]
          have := ih used hcc' hnu
          unfold standaloneResultCount resultCount at this
          simp [isResultWithId, this]
      | image u mt =>
          have hcc' : callCount id rest = 0 := by
            unfold callCount at hcc ⊢
            rw [List.countP_cons] at hcc
            omega
          have hgo : groupGo m (ContentBlock.image u mt :: rest) used =
              .block (.image u mt) :: groupGo m rest used := by
            simp [groupGo]
          rw [hgo]
          unfold standaloneResultCount resultCount
          rw [List.countP_cons, List.countP_cons]
          have := ih used hcc' hnu
          unfold standaloneResultCount resultCount at this
          simp [isResultWithId, this]

theorem standalone_zero_of_call_before (m : List (String × ToolResultBlock))
    (id : String) (hsome : (mapFind m id).isSome = true) :
    ∀ (rest : List ContentBlock) (used : List String),
      (∀ (as : List ContentBlock) (r : ToolResultBlock) (bs : List ContentBlock),
        rest = as ++ ContentBlock.tool_result r :: bs → r.toolCallId = id →
        1 ≤ callCount id as) →
      standaloneResultCount id (groupGo m rest used) = 0 := by
  intro rest
  induction rest with
  | nil => intro used _; rfl
  | cons b rest ih =>
      intro used hP
      cases b with
      | tool_call c =>
          by_cases hcid : c.toolCallId = id
          · obtain ⟨r, hf⟩ : ∃ r, mapFind m c.toolCallId = some r := by
              rw [hcid]
              exact Option.isSome_iff_exists.mp hsome
            have hgo : groupGo m (ContentBlock.tool_call c :: rest) used =
                .grouped c (some r) :: groupGo m rest (c.toolCallId :: used) := by
              simp [groupGo, hf]
            rw [hgo]
            unfold standaloneResultCount
            rw [List.countP_cons]
            have := standalone_zero_of_used m id rest (c.toolCallId :: used)
              (hcid ▸ List.mem_cons_self _ _)
            unfold standaloneResultCount at this
            simp [this]
          · have hP' : ∀ (as : List ContentBlock) (r' : ToolResultBlock)
                (bs : List ContentBlock),
                rest = as ++ ContentBlock.tool_result r' :: bs →
                r'.toolCallId = id → 1 ≤ callCount id as := by
              intro as r' bs heq hr'
              have := hP (ContentBlock.tool_call c :: as) r' bs
                (by rw [heq]; rfl) hr'
              unfold callCount at this ⊢
              rw [List.countP_cons] at this
              have hfalse : isCallWithId id (ContentBlock.tool_call c) = false := by
                simp [isCallWithId, hcid]
              rw [hfalse] at this
              simpa using this
            cases hf : mapFind m c.toolCallId with
            | some r =>
                have hgo : groupGo m (ContentBlock.tool_call c :: rest) used =
                    .grouped c (some r) :: groupGo m rest (c.toolCallId :: used) := by
                  simp [groupGo, hf]
                rw [hgo]
                unfold standaloneResultCount
                rw [List.countP_cons]
                have := ih (c.toolCallId :: used) hP'
                unfold standaloneResultCount at this
                simp [this]
            | none =>
                have hgo : groupGo m (ContentBlock.tool_call c :: rest) used =
                    .grouped c none :: groupGo m rest used := by
                  simp [groupGo, hf]
                rw [hgo]
                unfold standaloneResultCount
                rw [List.countP_cons]
                have := ih used hP'
                unfold standaloneResultCount at this
                simp [this]
      | tool_result r =>
          by_cases hrid : r.toolCallId = id
          · exfalso
            have := hP [] r rest rfl hrid
            simp [callCount] at this
          · have hP' : ∀ (as : List ContentBlock) (r' : ToolResultBlock)
                (bs : List ContentBlock),
                rest = as ++ ContentBlock.tool_result r' :: bs →
                r'.toolCallId = id → 1 ≤ callCount id as := by
              intro as r' bs heq hr'
              have := hP (ContentBlock.tool_result r :: as) r' bs
                (by rw [heq]; rfl) hr'
              unfold callCount at this ⊢
              rw [List.countP_cons] at this
              simpa [isCallWithId] using this
            cases hcont : used.contains r.toolCallId with
            | true =>
                have hmu : r.toolCallId ∈ used := by simpa using hcont
                have hgo : groupGo m (ContentBlock.tool_result r :: rest) used =
                    groupGo m rest used := by
                  simp [groupGo, hcont, hmu]
                rw [hgo]
                exact ih used hP'
            | false =>
                have hmu : r.toolCallId ∉ used := by simpa using hcont
                have hgo : groupGo m (ContentBlock.tool_result r :: rest) used =
                    .block (.tool_result r) :: groupGo m rest used := by
                  simp [groupGo, hcont, hmu]
                rw [hgo]
                unfold standaloneResultCount
                rw [List.countP_cons]
                have := ih used hP'
                unfold standaloneResultCount at this
                simp [this, hrid]
      | text t =>
          have hP' : ∀ (as : List ContentBlock) (r' : ToolResultBlock)
              (bs : List ContentBlock),
              rest = as ++ ContentBlock.tool_result r' :: bs →
              r'.toolCallId = id → 1 ≤ callCount id as := by
            intro as r' bs heq hr'
            have := hP (ContentBlock.text t :: as) r' bs (by rw [heq]; rfl) hr'
            unfold callCount at this ⊢
            rw [List.countP_cons] at this
            simpa [isCallWithId] using this
          have hgo : groupGo m (ContentBlock.text t :: rest) used =
              .block (.text t) :: groupGo m rest used := by
            simp [groupGo]
          rw [hgo]
          unfold standaloneResultCount
          rw [List.countP_cons]
          have := ih used hP'
          unfold standaloneResultCount at this
          simp [this]
      | image u mt =>
          have hP' : ∀ (as : List ContentBlock) (r' : ToolResultBlock)
              (bs : List ContentBlock),
              rest = as ++ ContentBlock.tool_result r' :: bs →
              r'.toolCallId = id → 1 ≤ callCount id as := by
            intro as r' bs heq hr'
            have := hP (ContentBlock.image u mt :: as) r' bs (by rw [heq]; rfl) hr'
            unfold callCount at this ⊢
            rw [List.countP_cons] at this
            simpa [isCallWithId] using this
          have hgo : groupGo m (ContentBlock.image u mt :: rest) used =
              .block (.image u mt) :: groupGo m rest used := by
            simp [groupGo]
          rw [hgo]
          unfold standaloneResultCount
          rw [List.countP_cons]
          have := ih used hP'
          unfold standaloneResultCount at this
          simp [this]

theorem cbrAux_split (A : List String) (r : ToolResultBlock)
    (bs : List ContentBlock) :
    ∀ (as : List ContentBlock) (seen : List String),
      cbrAux A seen (as ++ ContentBlock.tool_result r :: bs) = true →
      A.contains r.toolCallId = true →
      seen.contains r.toolCallId = true ∨ 1 ≤ callCount r.toolCallId as := by
  intro as
  induction as with
  | nil =>
      intro seen hcbr hA
      rw [List.nil_append] at hcbr
      unfold cbrAux at hcbr
      rcases Bool.and_eq_true_iff.mp hcbr with ⟨hcond, _⟩
      rw [hA] at hcond
      simp only [Bool.not_true, Bool.false_or] at hcond
      exact Or.inl hcond
  | cons b as ih =>
      intro seen hcbr hA
      cases b with
      | tool_call c =>
          rw [List.cons_append] at hcbr
          unfold cbrAux at hcbr
          rcases ih (c.toolCallId :: seen) hcbr hA with hseen | hcount
          · have hmem : r.toolCallId ∈ c.toolCallId :: seen := by
              simpa using hseen
            rcases List.mem_cons.mp hmem with hh | ht
            · right
              unfold callCount
              rw [List.countP_cons]
              have : isCallWithId r.toolCallId (ContentBlock.tool_call c) = true := by
                simp [isCallWithId, hh]
              simp [this]
            · exact Or.inl (by simpa using ht)
          · right
            unfold callCount at hcount ⊢
            rw [List.countP_cons]
            omega
      | tool_result r' =>
          rw [List.cons_append] at hcbr
          unfold cbrAux at hcbr
          rcases Bool.and_eq_true_iff.mp hcbr with ⟨_, hrest⟩
          rcases ih seen hrest hA with hseen | hcount
          · exact Or.inl hseen
          · right
            unfold callCount at hcount ⊢
            rw [List.countP_cons]
            omega
      | text t =>
          rw [List.cons_append] at hcbr
          unfold cbrAux at hcbr
          rcases ih seen hcbr hA with hseen | hcount
          · exact Or.inl hseen
          · right
            unfold callCount at hcount ⊢
            rw [List.countP_cons]
            omega
      | image u mt =>
          rw [List.cons_append] at hcbr
          unfold cbrAux at hcbr
          rcases ih seen hcbr hA with hseen | hcount
          · exact Or.inl hseen
          · right
            unfold callCount at hcount ⊢
            rw [List.countP_cons]
            omega

theorem groupGo_pairs_share_id (m : List (String × ToolResultBlock))
    (hok : ∀ k r, mapFind m k = some r → r.toolCallId = k) :
    ∀ (rest : List ContentBlock) (used : List String)
      (c : ToolCallBlock) (r : ToolResultBlock),
      ContentItem.grouped c (some r) ∈ groupGo m rest used →
      c.toolCallId = r.toolCallId := by
  intro rest
  induction rest with
  | nil => intro used c r h; cases h
  | cons b rest ih =>
      intro used c r h
      cases b with
      | tool_call c' =>
          cases hf : mapFind m c'.toolCallId with
          | some r' =>
              have hgo : groupGo m (ContentBlock.tool_call c' :: rest) used =
                  .grouped c' (some r') :: groupGo m rest (c'.toolCallId :: used) := by
                simp [groupGo, hf]
              rw [hgo] at h
              rcases List.mem_cons.mp h with hh | ht
              · cases hh
                exact (hok _ _ hf).symm
              · exact ih _ c r ht
          | none =>
              have hgo : groupGo m (ContentBlock.tool_call c' :: rest) used =
                  .grouped c' none :: groupGo m rest used := by
                simp [groupGo, hf]
              rw [hgo] at h
              rcases List.mem_cons.mp h with hh | ht
              · cases hh
              · exact ih _ c r ht
      | tool_result r' =>
          cases hcont : used.contains r'.toolCallId with
          | true =>
              have hmu : r'.toolCallId ∈ used := by simpa using hcont
              have hgo : groupGo m (ContentBlock.tool_result r' :: rest) used =
                  groupGo m rest used := by
                simp [groupGo, hcont, hmu]
              rw [hgo] at h
              exact ih _ c r h
          | false =>
              have hmu : r'.toolCallId ∉ used := by simpa using hcont
              have hgo : groupGo m (ContentBlock.tool_result r' :: rest) used =
                  .block (.tool_result r') :: groupGo m rest used := by
                simp [groupGo, hcont, hmu]
              rw [hgo] at h
              rcases List.mem_cons.mp h with hh | ht
              · cases hh
              · exact ih _ c r ht
      | text t =>
          have hgo : groupGo m (ContentBlock.text t :: rest) used =
              .block (.text t) :: groupGo m rest used := by
            simp [groupGo]
          rw [hgo] at h
          rcases List.mem_cons.mp h with hh | ht
          · cases hh
          · exact ih _ c r ht
      | image u mt =>
          have hgo : groupGo m (ContentBlock.image u mt :: rest) used =
              .block (.image u mt) :: groupGo m rest used := by
            simp [groupGo]
          rw [hgo] at h
          rcases List.mem_cons.mp h with hh | ht
          · cases hh
          · exact ih _ c r ht

/-- Claim C4: on accumulator-shaped transcripts (unique tool-call ids, unique
tool-result ids, and every matched result preceded by its call — exactly what
the Transcript Accumulator produces), every `tool_result` renders exactly
once: grouped with the call sharing its toolCallId when that call exists, as
a standalone block when no such call exists, and never both; every grouped
unit pairs a call and a result sharing one toolCallId. -/
theorem tool_results_render_exactly_once (content : List ContentBlock)
    (hc : (callIds content).Nodup) (hr : (resultIds content).Nodup)
    (hord : callBeforeResult content = true) :
    ∀ id, id ∈ resultIds content →
      groupedResultCount id (groupToolCallsAndResults content) +
        standaloneResultCount id (groupToolCallsAndResults content) = 1 ∧
      (id ∈ callIds content →
        groupedResultCount id (groupToolCallsAndResults content) = 1 ∧
        standaloneResultCount id (groupToolCallsAndResults content) = 0) ∧
      (id ∉ callIds content →
        groupedResultCount id (groupToolCallsAndResults content) = 0 ∧
        standaloneResultCount id (groupToolCallsAndResults content) = 1) ∧
      (∀ (c : ToolCallBlock) (r : ToolResultBlock),
        ContentItem.grouped c (some r) ∈ groupToolCallsAndResults content →
        c.toolCallId = r.toolCallId) := by
  intro id hmem
  have hok : ∀ k r, mapFind (buildToolResultMap content) k = some r →
      r.toolCallId = k := fun k r h => buildMap_ok content k r h
  have hshare : ∀ (c : ToolCallBlock) (r : ToolResultBlock),
      ContentItem.grouped c (some r) ∈ groupToolCallsAndResults content →
      c.toolCallId = r.toolCallId := fun c r h =>
    groupGo_pairs_share_id (buildToolResultMap content) hok content [] c r h
  have hhit := mapFind_build_of_mem content id hmem
  have hgrp : groupedResultCount id (groupToolCallsAndResults content) =
      callCount id content := by
    unfold groupToolCallsAndResults
    rw [groupedCount_groupGo (buildToolResultMap content) hok id content []]
    simp [hhit]
  by_cases hcall : id ∈ callIds content
  · have hcc : callCount id content = 1 := by
      rw [callCount_eq_count]
      exact List.count_eq_one_of_mem hc hcall
    have hstand : standaloneResultCount id (groupToolCallsAndResults content) = 0 := by
      unfold groupToolCallsAndResults
      apply standalone_zero_of_call_before (buildToolResultMap content) id hhit
        content []
      intro as r bs heq hrid
      unfold callBeforeResult at hord
      have hcbr : cbrAux (callIds content) []
          (as ++ ContentBlock.tool_result r :: bs) = true := by
        rw [← heq]
        exact hord
      have hA : (callIds content).contains r.toolCallId = true :=
        List.elem_iff.mpr (by rw [hrid]; exact hcall)
      rcases cbrAux_split (callIds content) r bs as [] hcbr hA with hfalse | hcount
      · simp at hfalse
      · rw [hrid] at hcount
        exact hcount
    refine ⟨by rw [hgrp, hcc, hstand], fun _ => ⟨by rw [hgrp, hcc], hstand⟩,
      fun hn => absurd hcall hn, hshare⟩
  · have hcc : callCount id content = 0 := by
      rw [callCount_eq_count]
      exact List.count_eq_zero.mpr hcall
    have hrc : resultCount id content = 1 := by
      rw [resultCount_eq_count]
      exact List.count_eq_one_of_mem hr hmem
    have hstand : standaloneResultCount id (groupToolCallsAndResults content) = 1 := by
      unfold groupToolCallsAndResults
      rw [standalone_count_no_call (buildToolResultMap content) id content []
        hcc (by simp)]
      exact hrc
    refine ⟨by rw [hgrp, hcc, hstand], fun hmem' => absurd hmem' hcall,
      fun _ => ⟨by rw [hgrp, hcc], hstand⟩, hshare⟩

/-- Witness for C4 at a concrete transcript holding one paired call/result
and one orphan result. -/
theorem tool_results_render_exactly_once_witness :
    groupedResultCount "b"
        (groupToolCallsAndResults
          [ContentBlock.tool_call ⟨"a", "calc", Json.null, none, none, none⟩,
           ContentBlock.tool_result ⟨"a", "calc", Json.num 3, none⟩,
           ContentBlock.tool_result ⟨"b", "web", Json.null, none⟩]) +
      standaloneResultCount "b"
        (groupToolCallsAndResults
          [ContentBlock.tool_call ⟨"a", "calc", Json.null, none, none, none⟩,
           ContentBlock.tool_result ⟨"a", "calc", Json.num 3, none⟩,
           ContentBlock.tool_result ⟨"b", "web", Json.null, none⟩]) = 1 ∧
    ("b" ∈ callIds
        [ContentBlock.tool_call ⟨"a", "calc", Json.null, none, none, none⟩,
         ContentBlock.tool_result ⟨"a", "calc", Json.num 3, none⟩,
         ContentBlock.tool_result ⟨"b", "web", Json.null, none⟩] →
      groupedResultCount "b"
          (groupToolCallsAndResults
            [ContentBlock.tool_call ⟨"a", "calc", Json.null, none, none, none⟩,
             ContentBlock.tool_result ⟨"a", "calc", Json.num 3, none⟩,
             ContentBlock.tool_result ⟨"b", "web", Json.null, none⟩]) = 1 ∧
        standaloneResultCount "b"
          (groupToolCallsAndResults
            [ContentBlock.tool_call ⟨"a", "calc", Json.null, none, none, none⟩,
             ContentBlock.tool_result ⟨"a", "calc", Json.num 3, none⟩,
             ContentBlock.tool_result ⟨"b", "web", Json.null, none⟩]) = 0) ∧
    ("b" ∉ callIds
        [ContentBlock.tool_call ⟨"a", "calc", Json.null, none, none, none⟩,
         ContentBlock.tool_result ⟨"a", "calc", Json.num 3, none⟩,
         ContentBlock.tool_result ⟨"b", "web", Json.null, none⟩] →
      groupedResultCount "b"
          (groupToolCallsAndResults
            [ContentBlock.tool_call ⟨"a", "calc", Json.null, none, none, none⟩,
             ContentBlock.tool_result ⟨"a", "calc", Json.num 3, none⟩,
             ContentBlock.tool_result ⟨"b", "web", Json.null, none⟩]) = 0 ∧
        standaloneResultCount "b"
          (groupToolCallsAndResults
            [ContentBlock.tool_call ⟨"a", "calc", Json.null, none, none, none⟩,
             ContentBlock.tool_result ⟨"a", "calc", Json.num 3, none⟩,
             ContentBlock.tool_result ⟨"b", "web", Json.null, none⟩]) = 1) ∧
    (∀ (c : ToolCallBlock) (r : ToolResultBlock),
      ContentItem.grouped c (some r) ∈
        groupToolCallsAndResults
          [ContentBlock.tool_call ⟨"a", "calc", Json.null, none, none, none⟩,
           ContentBlock.tool_result ⟨"a", "calc", Json.num 3, none⟩,
           ContentBlock.tool_result ⟨"b", "web", Json.null, none⟩] →
      c.toolCallId = r.toolCallId) :=
  tool_results_render_exactly_once
    [ContentBlock.tool_call ⟨"a", "calc", Json.null, none, none, none⟩,
     ContentBlock.tool_result ⟨"a", "calc", Json.num 3, none⟩,
     ContentBlock.tool_result ⟨"b", "web", Json.null, none⟩]
    (by decide) (by decide) (by decide) "b" (by decide)

end Jean



